import Mathlib

/-!
Verification of the graph-construction core of pytorch-gui
(`src/pytorchgui/pytorchgui.py`).

The development shallowly embeds the Python source:

* `alphabetical_ids` / `str_lessthan` (source lines 248-277) become
  `allIds` (the n-th candidate string of the unfiltered generator stream,
  `prev` equal to the empty string) together with the filter predicate
  `str_lessthan prev / strVal`;
* `Graph.__init__` (lines 25-66) becomes `initGraph` over an identity-tagged
  module tree `PModule`;
* `Graph.instrumented_forward` (lines 68-145) becomes `instrumentedForward`,
  with the wrapped forward computation abstracted as a function that either
  raises or reports the hook firings and the autograd node of the result;
* `Graph.serialize` (lines 147-175) becomes `serialize`.

Python dictionaries are modelled as association lists with dictionary
insertion semantics (`dinsert`: replace the value at an existing key in
place, append a fresh key at the end); Python sets whose only observed
operations are membership, `add` and `remove` are modelled as duplicate-free
lists.
-/

/-! ### Identifier sequence (source lines 248-277) -/

/-- The alphabet the generator draws from (`string.ascii_lowercase`). -/
def asciiLowercase : List Char := "abcdefghijklmnopqrstuvwxyz".data

/-- The i-th character of `ascii_lowercase` (0-based). -/
def idChar (i : Nat) : Char := asciiLowercase.getD i 'a'

/-- `ord(c) - ord('a') + 1`: the digit value of one character
(source line 272: `(ord(str_char) - ord('a') + 1)`). -/
def charVal (c : Char) : Nat := c.toNat - 96

/-- Value of a reversed character list with digit weights `26^i`
(source lines 271-272: `for i, str_char in enumerate(reversed(str1)):
str1_val += (ord(str_char) - ord('a') + 1) * pow(26, i)`). -/
def valRev : List Char → Nat
  | [] => 0
  | c :: cs => charVal c + 26 * valRev cs

/-- Bijective base-26 value of an identifier string, as computed by
`str_lessthan`'s accumulation loops. -/
def strVal (s : String) : Nat := valRev s.data.reverse

/-- `str_lessthan` (source lines 264-277): compares two identifier strings by
their bijective base-26 values. -/
def str_lessthan (s1 s2 : String) : Bool := decide (strVal s1 < strVal s2)

/-- Candidate stream of `alphabetical_ids` before the `prev` filter, with
explicit fuel so that the definition is structurally recursive.  The stream
is `a..z`, then for every earlier candidate `rest` (in order) the block
`rest+a .. rest+z` (source lines 253-261); candidate `n` is the single
character `idChar n` when `n < 26` and otherwise `rest ++ char` where `rest`
is candidate `(n-26)/26` and `char` is `idChar ((n-26)%26)`. -/
def allIdsAux : Nat → Nat → String
  | 0, _ => ""
  | fuel+1, n =>
    if n < 26 then String.singleton (idChar n)
    else allIdsAux fuel ((n - 26) / 26) ++ String.singleton (idChar ((n - 26) % 26))

/-- The n-th candidate of the `alphabetical_ids` stream (0-based).
`alphabetical_ids(prev)` yields exactly the candidates `allIds n` with
`str_lessthan prev (allIds n)`, in order of `n`. -/
def allIds (n : Nat) : String := allIdsAux (n + 1) n

/-- A well-formed identifier: nonempty, all characters in `a..z`. -/
def validId (s : String) : Prop :=
  s.data ≠ [] ∧ ∀ c ∈ s.data, 97 ≤ c.toNat ∧ c.toNat ≤ 122

instance : DecidablePred validId := fun s => by
  unfold validId; infer_instance

theorem char_eq_of_toNat_eq {a b : Char} (h : a.toNat = b.toNat) : a = b := by
  cases a; cases b
  simp only [Char.toNat] at h
  congr 1
  exact UInt32.ext h

theorem allIdsAux_congr : ∀ f1 f2 n, n < f1 → n < f2 → allIdsAux f1 n = allIdsAux f2 n := by
  intro f1
  induction f1 using Nat.strong_induction_on with
  | _ f1 ih =>
    intro f2 n h1 h2
    match f1, f2 with
    | fa+1, fb+1 =>
      simp only [allIdsAux]
      by_cases h : n < 26
      · simp [h]
      · simp only [h, if_false]
        congr 1
        exact ih fa (by omega) fb ((n-26)/26) (by omega) (by omega)

theorem allIds_eq (n : Nat) :
    allIds n = if n < 26 then String.singleton (idChar n)
               else allIds ((n - 26) / 26) ++ String.singleton (idChar ((n - 26) % 26)) := by
  by_cases h : n < 26
  · simp [allIds, allIdsAux, h]
  · simp only [allIds, allIdsAux, h, if_false]
    congr 1
    exact allIdsAux_congr n ((n-26)/26 + 1) ((n-26)/26) (by omega) (by omega)

theorem strVal_append_singleton (s : String) (c : Char) :
    strVal (s ++ String.singleton c) = 26 * strVal s + charVal c := by
  simp only [strVal, String.singleton, String.data_append, String.data_push]
  simp [List.reverse_append, valRev]
  ring

theorem strVal_singleton (c : Char) : strVal (String.singleton c) = charVal c := by
  simp [strVal, String.singleton, valRev]

/-- Each candidate's bijective base-26 value is its 1-based position in the
stream: the stream enumerates identifiers in strictly increasing value order
with no gaps. -/
theorem strVal_allIds : ∀ n, strVal (allIds n) = n + 1 := by
  intro n
  induction n using Nat.strong_induction_on with
  | _ n ih =>
    rw [allIds_eq]
    by_cases h : n < 26
    · rw [if_pos h, strVal_singleton]
      have : ∀ i < 26, charVal (idChar i) = i + 1 := by decide
      exact this n h
    · rw [if_neg h, strVal_append_singleton]
      have hq : (n - 26) / 26 < n := by omega
      rw [ih _ hq]
      have hm : charVal (idChar ((n - 26) % 26)) = (n - 26) % 26 + 1 := by
        have : ∀ i < 26, charVal (idChar i) = i + 1 := by decide
        exact this _ (Nat.mod_lt _ (by omega))
      rw [hm]
      have := Nat.div_add_mod (n - 26) 26
      omega

theorem validId_allIds : ∀ n, validId (allIds n) := by
  intro n
  induction n using Nat.strong_induction_on with
  | _ n ih =>
    rw [allIds_eq]
    by_cases h : n < 26
    · rw [if_pos h]
      have : ∀ i < 26, validId (String.singleton (idChar i)) := by decide
      exact this n h
    · rw [if_neg h]
      have hq : (n - 26) / 26 < n := by omega
      have h1 := ih _ hq
      have h2 : ∀ i < 26, 97 ≤ (idChar i).toNat ∧ (idChar i).toNat ≤ 122 := by decide
      constructor
      · simp [String.singleton]
      · intro c hc
        simp only [String.data_append, String.data_push, List.mem_append] at hc
        rcases hc with hc | hc
        · exact h1.2 c hc
        · simp at hc
          subst hc
          exact h2 _ (Nat.mod_lt _ (by omega))

theorem idChar_charVal (c : Char) (h1 : 97 ≤ c.toNat) (h2 : c.toNat ≤ 122) :
    idChar (charVal c - 1) = c := by
  apply char_eq_of_toNat_eq
  have h3 : ∀ i < 26, (idChar i).toNat = 97 + i := by decide
  have h4 : charVal c - 1 < 26 := by unfold charVal; omega
  rw [h3 _ h4]
  unfold charVal
  omega

theorem valRev_pos : ∀ l : List Char, l ≠ [] → (∀ c ∈ l, 97 ≤ c.toNat) → 1 ≤ valRev l := by
  intro l hne hv
  match l with
  | c :: cs =>
    have := hv c (by simp)
    simp only [valRev, charVal]
    omega

/-- Every well-formed identifier occurs in the stream, at the position one
below its value (no identifier is skipped). -/
theorem allIds_strVal : ∀ s, validId s → allIds (strVal s - 1) = s := by
  intro s hs
  obtain ⟨data⟩ := s
  obtain ⟨hne, hv⟩ := hs
  simp only at hne hv ⊢
  induction data using List.reverseRecOn with
  | nil => exact absurd rfl hne
  | append_singleton l' c ih =>
    have hc := hv c (by simp)
    by_cases hl : l' = []
    · subst hl
      simp only [List.nil_append] at *
      have hval : strVal ⟨[c]⟩ = charVal c := strVal_singleton c
      rw [hval, allIds_eq]
      have h4 : charVal c - 1 < 26 := by unfold charVal; omega
      rw [if_pos h4]
      rw [idChar_charVal c hc.1 hc.2]
      rfl
    · have hv' : ∀ x ∈ l', 97 ≤ x.toNat ∧ x.toNat ≤ 122 := fun x hx => hv x (by simp [hx])
      have ih' := ih hl hv'
      have hsplit : strVal ⟨l' ++ [c]⟩ = 26 * strVal ⟨l'⟩ + charVal c := by
        have : (⟨l' ++ [c]⟩ : String) = (⟨l'⟩ : String) ++ String.singleton c := by
          apply String.ext
          simp [String.singleton]
        rw [this, strVal_append_singleton]
      have hvpos : 1 ≤ strVal ⟨l'⟩ := by
        apply valRev_pos
        · simpa using hl
        · intro x hx
          exact (hv' x (by simpa using hx)).1
      have hcv1 : 1 ≤ charVal c := by unfold charVal; omega
      have hcv2 : charVal c ≤ 26 := by unfold charVal; omega
      set v := strVal ⟨l'⟩ with hvdef
      have hn26 : ¬ (strVal ⟨l' ++ [c]⟩ - 1 < 26) := by omega
      rw [allIds_eq, if_neg hn26]
      have hdiv : (strVal ⟨l' ++ [c]⟩ - 1 - 26) / 26 = v - 1 := by
        rw [hsplit]
        have : 26 * v + charVal c - 1 - 26 = 26 * (v - 1) + (charVal c - 1) := by omega
        rw [this, Nat.mul_add_div (by omega), Nat.div_eq_of_lt (by omega)]
        omega
      have hmod : (strVal ⟨l' ++ [c]⟩ - 1 - 26) % 26 = charVal c - 1 := by
        rw [hsplit]
        have : 26 * v + charVal c - 1 - 26 = 26 * (v - 1) + (charVal c - 1) := by omega
        rw [this, Nat.mul_add_mod, Nat.mod_eq_of_lt (by omega)]
      rw [hdiv, hmod, ih', idChar_charVal c hc.1 hc.2]
      apply String.ext
      simp [String.singleton]

theorem allIds_injective : Function.Injective allIds := by
  intro m n h
  have hm := strVal_allIds m
  have hn := strVal_allIds n
  rw [h] at hm
  omega

/-- C1: the identifier sequence started fresh (`alphabetical_ids()`,
`prev = ''`) yields exactly `a, b, ..., z, aa, ab, ..., az, ba, ...` in that
order with no gaps and no repeats, and an identifier `x` is yielded before
`y` iff the bijective base-26 value of `x` is below that of `y`.  Formally:
the empty-prefix filter accepts every candidate, candidate `n` is a valid
identifier of value exactly `n+1` (so the stream is gap-free and
repeat-free), every valid identifier appears at position `value - 1`, and
generation order coincides with `str_lessthan` order. -/
theorem alphabetical_ids_fresh_spec :
    (∀ n, str_lessthan "" (allIds n) = true) ∧
    (∀ n, strVal (allIds n) = n + 1) ∧
    (∀ n, validId (allIds n)) ∧
    (∀ s, validId s → allIds (strVal s - 1) = s) ∧
    (∀ m n, str_lessthan (allIds m) (allIds n) = true ↔ m < n) := by
  refine ⟨?_, strVal_allIds, validId_allIds, allIds_strVal, ?_⟩
  · intro n
    simp only [str_lessthan, decide_eq_true_eq]
    rw [strVal_allIds]
    show strVal "" < n + 1
    simp [strVal, valRev]
  · intro m n
    simp only [str_lessthan, decide_eq_true_eq, strVal_allIds]
    omega

/-- Witness for C1: instantiates the surjectivity component at the concrete
identifier `"ba"` (value 53, the 53rd element of the stream). -/
theorem alphabetical_ids_fresh_spec_witness :
    validId "ba" ∧ allIds (strVal "ba" - 1) = "ba" :=
  ⟨by decide, alphabetical_ids_fresh_spec.2.2.2.1 "ba" (by decide)⟩

/-- C5: the sequence resumed after `prev` (`alphabetical_ids(prev)`) yields a
candidate iff its bijective base-26 value exceeds that of `prev` — i.e.
candidate `n` is yielded iff `strVal prev ≤ n` — it never re-issues an
identifier of value at most `strVal prev`, and every strictly later valid
identifier is yielded (it occurs in the stream past the cutoff).  In
particular resuming after `"c"` rejects `a`, `b`, `c` and the first accepted
candidate is `allIds 3 = "d"`. -/
theorem alphabetical_ids_resume_spec :
    (∀ prev n, str_lessthan prev (allIds n) = true ↔ strVal prev ≤ n) ∧
    (∀ prev s, validId s → strVal prev < strVal s →
      str_lessthan prev s = true ∧ allIds (strVal s - 1) = s) ∧
    (str_lessthan "c" "a" = false ∧ str_lessthan "c" "b" = false ∧
      str_lessthan "c" "c" = false ∧ allIds 3 = "d" ∧
      str_lessthan "c" (allIds 3) = true) := by
  refine ⟨?_, ?_, by decide⟩
  · intro prev n
    simp only [str_lessthan, decide_eq_true_eq, strVal_allIds]
    omega
  · intro prev s hval hlt
    exact ⟨by simp only [str_lessthan, decide_eq_true_eq]; omega, allIds_strVal s hval⟩

/-- Witness for C5: resuming after `"a"` yields the identifier `"d"` (value
4, strictly above `strVal "a" = 1`). -/
theorem alphabetical_ids_resume_spec_witness :
    str_lessthan "a" "d" = true ∧ allIds (strVal "d" - 1) = "d" :=
  alphabetical_ids_resume_spec.2.1 "a" "d" (by decide) (by decide)

/-! ### Dictionaries and identity-tagged data model

Python dictionaries keyed by object identity are association lists; every
Python object that serves as a dictionary key carries an identity tag. -/

/-- Dictionary lookup (`d[k]` / `k in d`). -/
def alookup {α β : Type} [DecidableEq α] : List (α × β) → α → Option β
  | [], _ => none
  | (k, v) :: t, k' => if k' = k then some v else alookup t k'

/-- Dictionary assignment `d[k] = v`: replace in place if the key exists,
append otherwise (insertion-order semantics). -/
def dinsert {α β : Type} [DecidableEq α] : List (α × β) → α → β → List (α × β)
  | [], k, v => [(k, v)]
  | (k', v') :: t, k, v => if k' = k then (k, v) :: t else (k', v') :: dinsert t k v

/-- In-place mutation of the value stored at an existing key
(`d[k]['field'] = ...` on a nested dictionary). -/
def dmodify {α β : Type} [DecidableEq α] : List (α × β) → α → (β → β) → List (α × β)
  | [], _, _ => []
  | (k', v') :: t, k, f => if k' = k then (k', f v') :: t else (k', v') :: dmodify t k f

/-- A `torch.nn.Parameter`: identity tag plus the `type(param.data).__name__`
and `param.data.size()` observations used by `Graph.serialize`. -/
structure Param where
  tag : Nat
  tyName : String
  shape : List Nat
deriving DecidableEq

/-- Identity of a `torch.nn.Module` plus its `type(module).__name__`. -/
structure MRef where
  tag : Nat
  tyName : String
deriving DecidableEq

mutual
/-- A module hierarchy: identity, `_parameters` (name → Parameter object)
and `_modules` (name → submodule), in insertion order. -/
inductive PModule where
  | mk : MRef → List (String × Param) → PMods → PModule
deriving DecidableEq
/-- The `_modules` dictionary of a module. -/
inductive PMods where
  | nil : PMods
  | cons : String → PModule → PMods → PMods
deriving DecidableEq
end

def PModule.ref : PModule → MRef
  | .mk r _ _ => r

/-- One step of the parameter iteration: yield the directly owned parameters
not yet in the memo set. -/
def scanParams : List (String × Param) → List Nat → List Param × List Nat
  | [], memo => ([], memo)
  | (_, p) :: t, memo =>
    if p.tag ∈ memo then scanParams t memo
    else
      let res := scanParams t (p.tag :: memo)
      (p :: res.1, res.2)

mutual
/-- Modelled from the spec: `torch.nn.Module.parameters()` (the external
library collaborator iterated by `Graph.__init__`, line 37) — a recursive
walk yielding each unique parameter object once, own parameters before
submodule parameters, deduplicated by object identity via a memo set
("assigning one identifier per unique module and per unique parameter,
deduplicating parameters shared across submodules"). -/
def PModule.paramsMemo : PModule → List Nat → List Param × List Nat
  | .mk _ ps subs, memo =>
    let r1 := scanParams ps memo
    let r2 := PMods.paramsMemo subs r1.2
    (r1.1 ++ r2.1, r2.2)
def PMods.paramsMemo : PMods → List Nat → List Param × List Nat
  | .nil, memo => ([], memo)
  | .cons _ m rest, memo =>
    let r1 := PModule.paramsMemo m memo
    let r2 := PMods.paramsMemo rest r1.2
    (r1.1 ++ r2.1, r2.2)
end

def PModule.parameters (m : PModule) : List Param := (m.paramsMemo []).1

/-! ### Tree registration (`Graph.__init__`, source lines 25-66) -/

/-- One value of `self.module_tree`: `{'children': {...}, 'params': {...}}`. -/
structure MEntry where
  children : List (String × String)
  params : List (String × String)
deriving DecidableEq

/-- The mutable state threaded through `register_submodules`: the enclosing
`Graph`'s `module_to_id`, `module_tree`, the closed-over `unique_param_ids`
set, and the id-generator position `genK` (the generator started from
`prev = ''` yields `allIds 0, allIds 1, ...` in order, so its state is the
count of draws so far) together with `self.prev_id`. -/
structure RState where
  module_to_id : List (MRef × String)
  module_tree : List (String × MEntry)
  uniq : List String
  genK : Nat
  prev_id : String
deriving DecidableEq

/-- `self.param_to_id[param]` — the dictionary is keyed by parameter object
identity. -/
def palookup : List (Param × String) → Nat → Option String
  | [], _ => none
  | (p, v) :: t, tg => if p.tag = tg then some v else palookup t tg

/-- The removal loop `for key, param_id in ...['params'].items():
unique_param_ids.remove(param_id)` (source lines 56-57).  `set.remove` on a
duplicate-free set removes the element; the `KeyError` Python raises when
the element is absent cannot occur on the runs considered here because the
identifiers of one entry's `params` are pairwise distinct members of the
set. -/
def eraseList : List String → List (String × String) → List String
  | u, [] => u
  | u, (_, pid) :: t => eraseList (u.erase pid) t

def addParamEntry (key pid : String) (e : MEntry) : MEntry :=
  { e with params := dinsert e.params key pid }

def addChildEntry (key sid : String) (e : MEntry) : MEntry :=
  { e with children := dinsert e.children key sid }

/-- The ownership loop of `register_submodules` (source lines 59-62): for
each directly owned parameter still in `unique_param_ids`, record it in this
module's `params` map.  The `params` dictionary of `module_to_id[mid]` is
updated in place. -/
def attributeParams (p2i : List (Param × String)) (mid : String) :
    List (String × Param) → RState → RState
  | [], st => st
  | (key, p) :: t, st =>
    let pid := (palookup p2i p.tag).getD ""
    let st' := if pid ∈ st.uniq
      then { st with module_tree := dmodify st.module_tree mid (addParamEntry key pid) }
      else st
    attributeParams p2i mid t st'

mutual
/-- `register_submodules` (source lines 43-64): allocate this module's
identifier, record it, create its empty tree entry, recurse into the named
children (removing every child-owned parameter identifier from
`unique_param_ids` as each child completes), then attribute the still
unclaimed directly-owned parameters. -/
def registerSub (p2i : List (Param × String)) : PModule → RState → String × RState
  | .mk r ps subs, st =>
    let mid := allIds st.genK
    let st1 : RState :=
      { module_to_id := dinsert st.module_to_id r mid
        module_tree := dinsert st.module_tree mid ⟨[], []⟩
        uniq := st.uniq
        genK := st.genK + 1
        prev_id := mid }
    let st2 := registerChildren p2i mid subs st1
    (mid, attributeParams p2i mid ps st2)
/-- The `for key, submodule in module._modules.items()` loop of
`register_submodules` (source lines 53-57). -/
def registerChildren (p2i : List (Param × String)) (mid : String) : PMods → RState → RState
  | .nil, st => st
  | .cons key sub rest, st =>
    let r := registerSub p2i sub st
    let st2 := { r.2 with module_tree := dmodify r.2.module_tree mid (addChildEntry key r.1) }
    let eparams := ((alookup st2.module_tree r.1).getD ⟨[], []⟩).params
    let st3 := { st2 with uniq := eraseList st2.uniq eparams }
    registerChildren p2i mid rest st3
end

/-- An input `Variable`: identity tag plus the `type(input.data).__name__`
and `input.data.size()` observations used to label Input nodes. -/
structure ITensor where
  tag : Nat
  tyName : String
  shape : List Nat
deriving DecidableEq

/-- One value of `self.functional_graph`: `{'type': ..., 'dependencies':
set(), 'parent_module': ...}`.  The dependency set is kept as the list of
its elements in insertion order. -/
structure FEntry where
  ty : String
  dependencies : List String
  parent_module : Option String
deriving DecidableEq

/-- The persistent state of a `Graph` object after `__init__`: the numeric
tensor contents of the model are irrelevant to graph construction and are
not modelled.  `dataloader` is the optional data-loading collaborator,
abstracted as the one `(inputs, targets)` batch its iterator would yield. -/
structure GState where
  rootRef : MRef
  module_to_id : List (MRef × String)
  module_tree : List (String × MEntry)
  param_to_id : List (Param × String)
  functional_graph : List (String × FEntry)
  prev_id : String
  dataloader : Option (List ITensor × Unit)
deriving DecidableEq

/-- The parameter loop of `Graph.__init__` (source lines 37-41): one fresh
identifier per yielded parameter, recording `param_to_id`, the
`unique_param_ids` set and `prev_id`.  The keys produced by the memoised
parameter iteration are pairwise distinct, so plain consing realises the
dictionary writes. -/
def allocParams : List Param → Nat → String → List (Param × String) × List String × Nat × String
  | [], k, prev => ([], [], k, prev)
  | p :: t, k, _ =>
    let pid := allIds k
    let res := allocParams t (k + 1) pid
    ((p, pid) :: res.1, pid :: res.2.1, res.2.2)

/-- `Graph.__init__` (source lines 25-66): allocate parameter identifiers in
iteration order, then run `register_submodules` on the root.  `prev_id` ends
as the identifier issued by the latest draw of the shared generator. -/
def initGraph (root : PModule) (dl : Option (List ITensor × Unit)) : GState :=
  let ps := root.parameters
  let a := allocParams ps 0 ""
  let rst0 : RState := ⟨[], [], a.2.1, a.2.2.1, a.2.2.2⟩
  let r := registerSub a.1 root rst0
  { rootRef := root.ref
    module_to_id := r.2.module_to_id
    module_tree := r.2.module_tree
    param_to_id := a.1
    functional_graph := []
    prev_id := r.2.prev_id
    dataloader := dl }

/-! ### Instrumented forward (`Graph.instrumented_forward`, lines 68-145) -/

/-- Keys of the per-call `node_to_id` dictionary: parameter objects, module
objects, and runtime autograd objects (input variables, function nodes, the
result variable), distinguished by Python object identity. -/
inductive NKey where
  | param : Nat → NKey
  | mod : Nat → NKey
  | obj : Nat → NKey
deriving DecidableEq

mutual
/-- A runtime autograd node reachable from `output.creator`.  Sharing in the
runtime object graph (the same object reached along two paths) is expressed
by equal identity tags.  `leafParam` is a `Parameter` leaf (a key of
`param_to_id`), `leafVar` a non-parameter node without
`previous_functions`, `op` a function node whose `previous_functions` list
the operand nodes. -/
inductive ANode where
  | leafParam : Param → ANode
  | leafVar : Nat → String → ANode
  | op : Nat → String → ANodes → ANode
deriving DecidableEq
/-- Operand list of an `op` node. -/
inductive ANodes where
  | nil : ANodes
  | cons : ANode → ANodes → ANodes
deriving DecidableEq
end

/-- The `node_to_id` key of a runtime node (its Python object identity). -/
def keyOf : ANode → NKey
  | .leafParam p => .param p.tag
  | .leafVar t _ => .obj t
  | .op t _ _ => .obj t

/-- `type(node).__name__` for a runtime node. -/
def tyOf : ANode → String
  | .leafParam _ => "Parameter"
  | .leafVar _ ty => ty
  | .op _ ty _ => ty

/-- The per-call mutable state read and written by `fill_functional_graph`:
the scoped `node_to_id` table, `self.functional_graph`, and the position of
`node_id_gen = alphabetical_ids(self.prev_id)` (which yields
`allIds (base + 0), allIds (base + 1), ...` where `base = strVal prev_id`,
by `alphabetical_ids_resume_spec`). -/
structure FState where
  node_to_id : List (NKey × String)
  functional_graph : List (String × FEntry)
  genK : Nat
  base : Nat
deriving DecidableEq

/-- `node_to_id = {**self.param_to_id, **self.module_to_id}` (source line
70). -/
def mergeIds (p2i : List (Param × String)) (m2i : List (MRef × String)) :
    List (NKey × String) :=
  p2i.map (fun pr => (NKey.param pr.1.tag, pr.2)) ++
    m2i.map (fun mr => (NKey.mod mr.1.tag, mr.2))

/-- `set.add` on the dependency set, keeping insertion order. -/
def addDep (l : List String) (x : String) : List String :=
  if x ∈ l then l else l ++ [x]

def addDepEntry (did : String) (e : FEntry) : FEntry :=
  { e with dependencies := addDep e.dependencies did }

/-- The registration block of `fill_functional_graph` (source lines 77-84):
draw the next identifier, record the node, create its graph entry. -/
def allocNode (parentId : String) (key : NKey) (ty : String) (fst : FState) : FState :=
  { node_to_id := dinsert fst.node_to_id key (allIds (fst.base + fst.genK))
    functional_graph := dinsert fst.functional_graph (allIds (fst.base + fst.genK))
      ⟨ty, [], some parentId⟩
    genK := fst.genK + 1
    base := fst.base }

mutual
/-- `fill_functional_graph` (source lines 75-91): a node already present in
`node_to_id` is skipped entirely; otherwise it is allocated and, when it has
`previous_functions`, its operands are processed. -/
def fillFG (parentId : String) : ANode → FState → FState
  | .leafParam p, fst =>
    if (alookup fst.node_to_id (NKey.param p.tag)).isSome then fst
    else allocNode parentId (NKey.param p.tag) "Parameter" fst
  | .leafVar t ty, fst =>
    if (alookup fst.node_to_id (NKey.obj t)).isSome then fst
    else allocNode parentId (NKey.obj t) ty fst
  | .op t ty prevs, fst =>
    if (alookup fst.node_to_id (NKey.obj t)).isSome then fst
    else fillDeps parentId (allIds (fst.base + fst.genK)) prevs
           (allocNode parentId (NKey.obj t) ty fst)
/-- The operand loop of `fill_functional_graph` (source lines 87-91).  The
source's inner guard `if dep not in self.functional_graph` compares a node
object against a mapping keyed by identifier strings, so it always holds
and the recursive call is unconditional; `fillFG`'s own guard provides the
deduplication. -/
def fillDeps (parentId : String) (nid : String) : ANodes → FState → FState
  | .nil, fst => fst
  | .cons d rest, fst =>
    let fst1 := fillFG parentId d fst
    let did := (alookup fst1.node_to_id (keyOf d)).getD ""
    let fst2 := { fst1 with
      functional_graph := dmodify fst1.functional_graph nid (addDepEntry did) }
    fillDeps parentId nid rest fst2
end

/-- `self.module_to_id[module]` looked up by module object identity. -/
def mlookup : List (MRef × String) → Nat → Option String
  | [], _ => none
  | (r, v) :: t, tg => if r.tag = tg then some v else mlookup t tg

/-- Key set of the `activations` dictionary (the captured numeric
input/output snapshots themselves play no role in graph construction and
are abstracted away). -/
def addKey (l : List String) (k : String) : List String :=
  if k ∈ l then l else l ++ [k]

/-- `forward_hook` (source lines 93-99): record an activation entry under
the module's identifier, then register the runtime node produced by the
module (`output.creator`) with this module as parent. -/
def forward_hook (m2i : List (MRef × String)) (mtag : Nat) (creator : ANode)
    (acc : List String × FState) : List String × FState :=
  let mid := (mlookup m2i mtag).getD ""
  (addKey acc.1 mid, fillFG mid creator acc.2)

/-- The hook firings triggered inside `self.module.forward(*inputs)`, in
execution order. -/
def runHooks (m2i : List (MRef × String)) :
    List (Nat × ANode) → (List String × FState) → (List String × FState)
  | [], acc => acc
  | (mtag, creator) :: rest, acc => runHooks m2i rest (forward_hook m2i mtag creator acc)

/-- The label of a synthetic Input node (source lines 115-116). -/
def inputTyStr (t : ITensor) : String :=
  "Input: " ++ t.tyName ++ " (" ++ String.intercalate ", " (t.shape.map toString) ++ ")"

/-- The input loop (source lines 111-119): allocate one identifier per input
variable and create its dependency-free entry. -/
def addInputs : List ITensor → FState → FState
  | [], fst => fst
  | t :: rest, fst =>
    addInputs rest
      { node_to_id := dinsert fst.node_to_id (NKey.obj t.tag) (allIds (fst.base + fst.genK))
        functional_graph := dinsert fst.functional_graph (allIds (fst.base + fst.genK))
          ⟨inputTyStr t, [], none⟩
        genK := fst.genK + 1
        base := fst.base }

/-- Abstract outcome of a successful `self.module.forward(*inputs)` call
under the installed hooks: the hook firings it triggers, the identity,
`type(res.data).__name__`, `res.data.size()` and `res.creator` of the
returned variable. -/
structure FwdOk where
  events : List (Nat × ANode)
  resTag : Nat
  resTy : String
  resShape : List Nat
  resCreator : ANode
deriving DecidableEq

/-- The label of the synthetic Output node (source lines 131-132). -/
def outputTyStr (fo : FwdOk) : String :=
  "Output: " ++ fo.resTy ++ " (" ++ String.intercalate ", " (fo.resShape.map toString) ++ ")"

/-- The exceptions `instrumented_forward` can let escape: the explicit
`"Either inputs or a dataloader must be provided"` raise (source lines
102-104), or an exception propagating out of the wrapped forward
computation. -/
inductive IErr where
  | missingInput
  | fwdRaised
deriving DecidableEq

/-- The dictionary returned by `instrumented_forward` (source lines
141-145); the numeric `result` array is abstracted to its type
descriptor. -/
structure FwdRet where
  activations : List String
  functional_graph : List (String × FEntry)
  resTy : String
deriving DecidableEq

/-- `Graph.instrumented_forward` (source lines 68-145).  Besides the Python
return value (or the escaping exception) the embedding returns the
post-call `Graph` state and the number of forward hooks still attached to
the model when control leaves the method: `len(module_to_id)` handles are
registered before the forward call and the removal loop (source lines
138-139) runs only after a successful forward, so an exception raised by
the wrapped forward escapes with the hooks still attached. -/
def instrumentedForward (fwd : List ITensor → Except Unit FwdOk) (st : GState)
    (inputs0 : List ITensor) : GState × Nat × Except IErr FwdRet :=
  -- line 69: self.functional_graph = {}  (before anything can fail)
  let fst0 : FState := ⟨mergeIds st.param_to_id st.module_to_id, [], 0, strVal st.prev_id⟩
  let resolved : Except IErr (List ITensor) :=
    if inputs0.isEmpty then
      match st.dataloader with
      | none => .error .missingInput
      | some b => .ok b.1
    else .ok inputs0
  match resolved with
  | .error e => ({ st with functional_graph := fst0.functional_graph }, 0, .error e)
  | .ok inputs =>
    let fst1 := addInputs inputs fst0
    let handles := st.module_to_id.length
    match fwd inputs with
    | .error _ =>
      ({ st with functional_graph := fst1.functional_graph }, handles, .error .fwdRaised)
    | .ok fo =>
      let acc1 := runHooks st.module_to_id fo.events ([], fst1)
      let acc2 := forward_hook st.module_to_id st.rootRef.tag fo.resCreator acc1
      let dep := (alookup acc2.2.node_to_id (keyOf fo.resCreator)).getD ""
      let fst4 : FState :=
        { node_to_id := dinsert acc2.2.node_to_id (NKey.obj fo.resTag)
            (allIds (acc2.2.base + acc2.2.genK))
          functional_graph := dinsert acc2.2.functional_graph
            (allIds (acc2.2.base + acc2.2.genK))
            ⟨outputTyStr fo, [dep], mlookup st.module_to_id st.rootRef.tag⟩
          genK := acc2.2.genK + 1
          base := acc2.2.base }
      ({ st with functional_graph := fst4.functional_graph }, 0,
        .ok ⟨acc2.1, fst4.functional_graph, fo.resTy⟩)

/-! ### Serialisation (`Graph.serialize`, source lines 147-175) -/

/-- One record of the serialised graph; the `type` tag is determined by the
constructor (`SRec.tag`). -/
inductive SRec where
  | module : String → List (String × String) → List (String × String) → SRec
  | parameter : String → List Nat → SRec
  | function : String → List String → Option String → SRec
deriving DecidableEq

/-- The `'type'` field of a serialised record. -/
def SRec.tag : SRec → String
  | .module .. => "Module"
  | .parameter .. => "Parameter"
  | .function .. => "Function"

/-- `Graph.serialize` (source lines 147-175): modules, then parameters, then
every functional-graph entry, written into one dictionary keyed by
identifier.  The final `json.dumps` textual encoding is outside the model;
the argument it serialises is returned. -/
def serialize (st : GState) : List (String × SRec) :=
  let s1 := st.module_to_id.foldl
    (fun acc mi =>
      let e := (alookup st.module_tree mi.2).getD ⟨[], []⟩
      dinsert acc mi.2 (SRec.module mi.1.tyName e.params e.children)) []
  let s2 := st.param_to_id.foldl
    (fun acc pi => dinsert acc pi.2 (SRec.parameter pi.1.tyName pi.1.shape)) s1
  st.functional_graph.foldl
    (fun acc fe => dinsert acc fe.1 (SRec.function fe.2.ty fe.2.dependencies fe.2.parent_module)) s2

/-! ### Dictionary lemmas -/

theorem alookup_dinsert {α β : Type} [DecidableEq α] (l : List (α × β)) (k : α) (v : β)
    (k' : α) : alookup (dinsert l k v) k' = if k' = k then some v else alookup l k' := by
  induction l with
  | nil => simp [dinsert, alookup]
  | cons hd t ih =>
    obtain ⟨a, b⟩ := hd
    by_cases hak : a = k
    · subst hak
      simp only [dinsert, if_pos rfl, alookup]
      by_cases hk : k' = a
      · simp [hk]
      · simp [hk]
    · simp only [dinsert, if_neg hak, alookup]
      by_cases hk : k' = a
      · subst hk
        have : ¬ (k' = k) := fun h => hak (h ▸ rfl)
        simp [this]
      · simp only [if_neg hk, ih]

theorem alookup_dmodify {α β : Type} [DecidableEq α] (l : List (α × β)) (k : α) (f : β → β)
    (k' : α) :
    alookup (dmodify l k f) k' = if k' = k then (alookup l k').map f else alookup l k' := by
  induction l with
  | nil => simp [dmodify, alookup]
  | cons hd t ih =>
    obtain ⟨a, b⟩ := hd
    by_cases hak : a = k
    · subst hak
      simp only [dmodify, if_pos rfl, alookup]
      by_cases hk : k' = a
      · simp [hk]
      · simp [hk]
    · simp only [dmodify, if_neg hak, alookup]
      by_cases hk : k' = a
      · subst hk
        have : ¬ (k' = k) := fun h => hak (h ▸ rfl)
        simp [this]
      · simp only [if_neg hk, ih]

theorem snds_dinsert {α β : Type} [DecidableEq α] (l : List (α × β)) (k : α) (v : β)
    (p : β) (hp : p ∈ (dinsert l k v).map Prod.snd) : p = v ∨ p ∈ l.map Prod.snd := by
  induction l with
  | nil =>
    simp only [dinsert, List.map_cons, List.map_nil, List.mem_singleton] at hp
    exact Or.inl hp
  | cons hd t ih =>
    obtain ⟨a, b⟩ := hd
    by_cases hak : a = k
    · subst hak
      rw [dinsert, if_pos rfl, List.map_cons, List.mem_cons] at hp
      rcases hp with hp | hp
      · exact Or.inl hp
      · exact Or.inr (by rw [List.map_cons, List.mem_cons]; exact Or.inr hp)
    · rw [dinsert, if_neg hak, List.map_cons, List.mem_cons] at hp
      rcases hp with hp | hp
      · exact Or.inr (by rw [List.map_cons, List.mem_cons]; exact Or.inl hp)
      · rcases ih hp with hp | hp
        · exact Or.inl hp
        · exact Or.inr (by rw [List.map_cons, List.mem_cons]; exact Or.inr hp)

theorem eraseList_sublist (u : List String) (l : List (String × String)) :
    (eraseList u l).Sublist u := by
  induction l generalizing u with
  | nil => simp [eraseList]
  | cons hd t ih =>
    obtain ⟨a, b⟩ := hd
    exact (ih (u.erase b)).trans (u.erase_sublist b)

theorem eraseList_nodup (u : List String) (l : List (String × String)) (h : u.Nodup) :
    (eraseList u l).Nodup := (eraseList_sublist u l).nodup h

theorem notMem_eraseList (u : List String) (l : List (String × String)) (p : String)
    (h : p ∉ u) : p ∉ eraseList u l :=
  fun hmem => h ((eraseList_sublist u l).mem hmem)

theorem mem_eraseList (u : List String) (l : List (String × String)) (p : String)
    (hu : u.Nodup) (hp : p ∈ l.map Prod.snd) : p ∉ eraseList u l := by
  induction l generalizing u with
  | nil => simp at hp
  | cons hd t ih =>
    obtain ⟨a, b⟩ := hd
    rw [List.map_cons, List.mem_cons] at hp
    rcases hp with hp | hp
    · subst hp
      exact notMem_eraseList _ t p hu.not_mem_erase
    · exact ih (u.erase b) (hu.erase b) hp

/-! ### Concrete instances used by counterexamples and witnesses -/

/-- A parameter object shared between two modules in different branches. -/
def pShared : Param := ⟨0, "FloatTensor", [3]⟩

/-- Depth-1 module directly owning `pShared`. -/
def modC1 : PModule := .mk ⟨1, "Linear"⟩ [("w", pShared)] .nil

/-- Depth-2 module directly owning `pShared`. -/
def modG : PModule := .mk ⟨3, "Linear"⟩ [("w", pShared)] .nil

/-- Wrapper module containing `modG`. -/
def modC2 : PModule := .mk ⟨2, "Wrap"⟩ [] (.cons "g" modG .nil)

/-- Root whose first child (`modC1`, depth 1) and grand-child (`modG`,
depth 2) both directly own `pShared`. -/
def exRoot3 : PModule := .mk ⟨4, "Net"⟩ [] (.cons "c1" modC1 (.cons "c2" modC2 .nil))

/-- A parameter shared by a parent module and its child (the spec's
parameter-uniqueness scenario). -/
def pAB : Param := ⟨7, "FloatTensor", [2]⟩

/-- Child module `B` directly owning `pAB`. -/
def modB : PModule := .mk ⟨11, "Linear"⟩ [("w", pAB)] .nil

/-- Parent module `A` directly owning `pAB` and containing `modB`. -/
def modA : PModule := .mk ⟨12, "Par"⟩ [("w", pAB)] (.cons "b" modB .nil)

/-- A root module with no parameters and no children (registered as `"a"`). -/
def exRootF : PModule := .mk ⟨0, "Net"⟩ [] .nil

/-- `Graph(exRootF)` — no dataloader. -/
def exGF : GState := initGraph exRootF none

/-- A concrete input variable. -/
def exIn1 : ITensor := ⟨100, "FloatTensor", [2]⟩

/-- A forward computation whose result variable's creator is a `Tanh`
runtime node (identity tag 50). -/
def fwd1 : List ITensor → Except Unit FwdOk :=
  fun _ => .ok ⟨[], 200, "FloatTensor", [2], .leafVar 50 "Tanh"⟩

/-- A forward computation whose result variable's creator is a different
runtime node (identity tag 60, a `Sigmoid`). -/
def fwd2 : List ITensor → Except Unit FwdOk :=
  fun _ => .ok ⟨[], 201, "FloatTensor", [2], .leafVar 60 "Sigmoid"⟩

/-- A forward computation that raises. -/
def fwdFail : List ITensor → Except Unit FwdOk := fun _ => .error ()

/-- First instrumented forward call on `exGF`. -/
def exCall1 : GState × Nat × Except IErr FwdRet := instrumentedForward fwd1 exGF [exIn1]

/-- Second instrumented forward call on the state left by the first. -/
def exCall2 : GState × Nat × Except IErr FwdRet := instrumentedForward fwd2 exCall1.1 [exIn1]

/-- A graph state with no dataloader whose functional graph still holds the
previous call's snapshot. -/
def exStale : GState :=
  { initGraph exRootF none with functional_graph := [("z", ⟨"Tanh", [], none⟩)] }

/-- The diamond runtime graph: `Add` depends on `Mul` and `Exp`, both of
which depend on the same shared node (identity tag 30). -/
def sharedNode : ANode := .leafVar 30 "W"

def diamondX : ANode := .op 31 "Mul" (.cons sharedNode .nil)

def diamondY : ANode := .op 32 "Exp" (.cons sharedNode .nil)

def diamondTop : ANode := .op 33 "Add" (.cons diamondX (.cons diamondY .nil))

/-- An empty per-call fill state resuming after `prev_id = "a"`
(`base = strVal "a" = 1`). -/
def exFst : FState := ⟨[], [], 0, 1⟩

/-! ### Claim theorems: hooks, inputs, frame, idempotence -/

/-- C2 (code bug): evaluating `instrumented_forward` on a model with one
registered module and a forward computation that raises shows the call
propagating the exception with the hook still attached (`1` residual hook,
not `0`): the removal loop (source lines 138-139) runs only after a
successful forward, with no `try`/`finally`, though the source's own
comment ("remove the handle to keep the function stateless") and the spec
demand detachment on every exit path.  On the successful path all hooks are
removed. -/
theorem hooks_leak_on_forward_exception :
    exGF.module_to_id.length = 1 ∧
    (instrumentedForward fwdFail exGF [exIn1]).2.1 = 1 ∧
    (instrumentedForward fwdFail exGF [exIn1]).2.2 = Except.error IErr.fwdRaised ∧
    (instrumentedForward fwd1 exGF [exIn1]).2.1 = 0 := by
  refine ⟨rfl, rfl, rfl, rfl⟩

/-- C6: `fill_functional_graph` on a runtime node already present in
`node_to_id` is the identity — no identifier is drawn, no graph entry is
created and no state changes at all — and on the concrete diamond graph the
shared node is registered exactly once, its single identifier `"d"` being
referenced by the dependency sets of both later nodes. -/
theorem fill_functional_graph_idempotent :
    (∀ pid node fst, (alookup (FState.node_to_id fst) (keyOf node)).isSome = true →
        fillFG pid node fst = fst) ∧
    (fillFG "a" diamondTop exFst).functional_graph =
      [("b", ⟨"Add", ["c", "e"], some "a"⟩), ("c", ⟨"Mul", ["d"], some "a"⟩),
       ("d", ⟨"W", [], some "a"⟩), ("e", ⟨"Exp", ["d"], some "a"⟩)] := by
  constructor
  · intro pid node fst h
    cases node with
    | leafParam p => simp only [keyOf] at h; simp [fillFG, h]
    | leafVar t ty => simp only [keyOf] at h; simp [fillFG, h]
    | op t ty prevs => simp only [keyOf] at h; simp [fillFG, h]
  · rfl

/-- Witness for C6: re-registering the shared diamond node after the `Mul`
branch has already registered it leaves the state untouched. -/
theorem fill_functional_graph_idempotent_witness :
    fillFG "a" sharedNode (fillFG "a" diamondX exFst) = fillFG "a" diamondX exFst :=
  fill_functional_graph_idempotent.1 "a" sharedNode (fillFG "a" diamondX exFst) (by decide)

/-- C8: `instrumented_forward` raises the missing-input error exactly when it
is called with no inputs on a graph constructed without a dataloader; when
inputs are supplied, or a dataloader batch is available, the call never
produces that error (it either succeeds or propagates the wrapped forward's
own exception). -/
theorem missing_input_error_iff :
    ∀ fwd st inputs0,
      ((instrumentedForward fwd st inputs0).2.2 = Except.error IErr.missingInput) ↔
        (inputs0 = [] ∧ st.dataloader = none) := by
  intro fwd st inputs0
  unfold instrumentedForward
  rcases inputs0 with _ | ⟨t, ts⟩
  · rcases hdl : st.dataloader with _ | b
    · simp [hdl]
    · rcases hf : fwd b.1 with _ | fo <;> simp [hdl, hf]
  · rcases hf : fwd (t :: ts) with _ | fo <;> simp [hf]

/-- C9: an instrumented forward call leaves every piece of construction-time
graph state — the module tree, the module-to-identifier map, the
parameter-to-identifier map and the resume identifier `prev_id` — exactly as
it was, on every exit path; only `functional_graph` is replaced. -/
theorem instrumented_forward_frame :
    ∀ fwd st inputs0,
      (instrumentedForward fwd st inputs0).1.module_tree = st.module_tree ∧
      (instrumentedForward fwd st inputs0).1.module_to_id = st.module_to_id ∧
      (instrumentedForward fwd st inputs0).1.param_to_id = st.param_to_id ∧
      (instrumentedForward fwd st inputs0).1.prev_id = st.prev_id := by
  intro fwd st inputs0
  unfold instrumentedForward
  dsimp only
  split
  · exact ⟨rfl, rfl, rfl, rfl⟩
  · split
    · exact ⟨rfl, rfl, rfl, rfl⟩
    · exact ⟨rfl, rfl, rfl, rfl⟩

/-- C10: when the call fails for lack of inputs and dataloader, the graph's
functional-graph snapshot has already been reset to the empty mapping
(source line 69 executes before the check at lines 101-104), so the
previous call's snapshot is discarded even though this call produced
nothing. -/
theorem missing_input_discards_graph :
    ∀ fwd st, st.dataloader = none →
      (instrumentedForward fwd st []).1.functional_graph = [] ∧
      (instrumentedForward fwd st []).2.2 = Except.error IErr.missingInput := by
  intro fwd st h
  unfold instrumentedForward
  simp [h]

/-- Witness for C10: a graph holding a nonempty previous snapshot loses it
on the failing call. -/
theorem missing_input_discards_graph_witness :
    exStale.functional_graph ≠ [] ∧
    (instrumentedForward fwd1 exStale []).1.functional_graph = [] ∧
    (instrumentedForward fwd1 exStale []).2.2 = Except.error IErr.missingInput :=
  ⟨by decide, missing_input_discards_graph fwd1 exStale (by decide)⟩

/-! ### Counterexamples -/

/-- The graph built over `exRoot3`. -/
def exG3 : GState := initGraph exRoot3 none

/-- C3 counterexample: in `exRoot3` the parameter `pShared` (identifier
`"a"`) is directly owned both by `modC1` (depth 1, registered `"c"`) and by
`modG` (depth 2, registered `"e"`), so the lowest module that directly owns
it is `modG`; yet registration attributes `"a"` to `modC1`'s `params` map
and leaves `modG`'s empty: attribution follows depth-first completion
order, not depth. -/
theorem param_not_attributed_to_lowest_owner :
    exG3.param_to_id = [(pShared, "a")] ∧
    mlookup exG3.module_to_id 1 = some "c" ∧
    mlookup exG3.module_to_id 3 = some "e" ∧
    ¬ ("a" ∈ ((alookup exG3.module_tree "e").getD ⟨[], []⟩).params.map Prod.snd) ∧
    ("a" ∈ ((alookup exG3.module_tree "c").getD ⟨[], []⟩).params.map Prod.snd) := by
  refine ⟨rfl, rfl, rfl, by decide, by decide⟩

/-- C4 counterexample: `instrumented_forward` never advances `prev_id`, so a
second call resumes the generator from the same point and re-issues the same
identifiers: identifier `"c"` names the `Tanh` runtime node of the first
call's snapshot and the different `Sigmoid` runtime node of the second
call's snapshot on the same graph. -/
theorem id_reused_across_forward_calls :
    exCall2.1.prev_id = exGF.prev_id ∧
    alookup exCall1.1.functional_graph "c" = some ⟨"Tanh", [], some "a"⟩ ∧
    alookup exCall2.1.functional_graph "c" = some ⟨"Sigmoid", [], some "a"⟩ ∧
    (⟨"Tanh", [], some "a"⟩ : FEntry) ≠ (⟨"Sigmoid", [], some "a"⟩ : FEntry) := by
  refine ⟨rfl, rfl, rfl, by decide⟩

/-- C7 counterexample: the synthetic input and output boundary nodes of a
real instrumented forward call are serialised with the type tag
`"Function"` — their Input/Output nature survives only in the subtype
descriptor — so no record ever carries an `Input` or `Output` type tag. -/
theorem serialize_tags_boundary_nodes_function :
    alookup (serialize exCall1.1) "b" =
      some (SRec.function "Input: FloatTensor (2)" [] none) ∧
    alookup (serialize exCall1.1) "d" =
      some (SRec.function "Output: FloatTensor (2)" ["c"] (some "a")) ∧
    (SRec.function "Input: FloatTensor (2)" [] none).tag = "Function" ∧
    (SRec.function "Output: FloatTensor (2)" ["c"] (some "a")).tag = "Function" ∧
    "Function" ≠ "Input" ∧ "Function" ≠ "Output" := by
  refine ⟨rfl, rfl, rfl, rfl, by decide, by decide⟩

/-! ### Registration invariants (towards parameter-attribution uniqueness) -/

/-- The parameter identifiers attributed in one tree entry. -/
def pidsOf (e : MEntry) : List String := e.params.map Prod.snd

/-- No parameter identifier appears in two distinct entries of the module
tree. -/
def TreeDisj (tree : List (String × MEntry)) : Prop :=
  ∀ k1 k2 e1 e2, k1 ≠ k2 → alookup tree k1 = some e1 → alookup tree k2 = some e2 →
    ∀ p, p ∈ pidsOf e1 → p ∉ pidsOf e2

/-- Every already-attributed parameter identifier has been removed from the
`unique_param_ids` set. -/
def TreeClean (tree : List (String × MEntry)) (uniq : List String) : Prop :=
  ∀ k e, alookup tree k = some e → ∀ p, p ∈ pidsOf e → p ∉ uniq

/-- `TreeClean` for every entry except the one module currently being
registered (whose removal is owed to its parent). -/
def CleanExcept (tree : List (String × MEntry)) (uniq : List String) (mid : String) : Prop :=
  ∀ k e, alookup tree k = some e → k ≠ mid → ∀ p, p ∈ pidsOf e → p ∉ uniq

/-- Every key of the module tree was drawn from the generator before
position `g`. -/
def KeysBound (tree : List (String × MEntry)) (g : Nat) : Prop :=
  ∀ k, (alookup tree k).isSome = true → ∃ i, i < g ∧ k = allIds i

/-- The values of `module_to_id` were all drawn before position `genK` and
are pairwise distinct. -/
def MVals (s : RState) : Prop :=
  (∀ v ∈ s.module_to_id.map Prod.snd, ∃ i, i < s.genK ∧ v = allIds i) ∧
  (s.module_to_id.map Prod.snd).Nodup

theorem pidsOf_addChildEntry (k s : String) (e : MEntry) :
    pidsOf (addChildEntry k s e) = pidsOf e := rfl

theorem KeysBound_dmodify (tree : List (String × MEntry)) (g : Nat) (k : String)
    (f : MEntry → MEntry) (h : KeysBound tree g) : KeysBound (dmodify tree k f) g := by
  intro k' hk'
  rw [alookup_dmodify] at hk'
  by_cases hkk : k' = k
  · subst hkk
    rw [if_pos rfl] at hk'
    apply h
    simpa using hk'
  · rw [if_neg hkk] at hk'
    exact h k' hk'

theorem TreeDisj_dmodify (tree : List (String × MEntry)) (k : String) (f : MEntry → MEntry)
    (hf : ∀ e, pidsOf (f e) = pidsOf e) (h : TreeDisj tree) :
    TreeDisj (dmodify tree k f) := by
  intro k1 k2 e1 e2 hne h1 h2 p hp1
  rw [alookup_dmodify] at h1 h2
  by_cases hk1 : k1 = k <;> by_cases hk2 : k2 = k
  · exact absurd (hk1.trans hk2.symm) hne
  · rw [if_pos hk1] at h1
    rw [if_neg hk2] at h2
    rcases Option.map_eq_some'.mp h1 with ⟨e1', halt, he1⟩
    have hp1' : p ∈ pidsOf e1' := by rw [← he1, hf] at hp1; exact hp1
    exact h k1 k2 e1' e2 hne halt h2 p hp1'
  · rw [if_neg hk1] at h1
    rw [if_pos hk2] at h2
    rcases Option.map_eq_some'.mp h2 with ⟨e2', halt, he2⟩
    have : pidsOf e2 = pidsOf e2' := by rw [← he2, hf]
    rw [this]
    exact h k1 k2 e1 e2' hne h1 halt p hp1
  · rw [if_neg hk1] at h1
    rw [if_neg hk2] at h2
    exact h k1 k2 e1 e2 hne h1 h2 p hp1

theorem CleanExcept_dmodify (tree : List (String × MEntry)) (uniq : List String)
    (mid k : String) (f : MEntry → MEntry) (hf : ∀ e, pidsOf (f e) = pidsOf e)
    (h : CleanExcept tree uniq mid) : CleanExcept (dmodify tree k f) uniq mid := by
  intro k' e hk' hne p hp
  rw [alookup_dmodify] at hk'
  by_cases hkk : k' = k
  · rw [if_pos hkk] at hk'
    rcases Option.map_eq_some'.mp hk' with ⟨e', halt, he⟩
    have hp' : p ∈ pidsOf e' := by rw [← he, hf] at hp; exact hp
    exact h k' e' halt hne p hp'
  · rw [if_neg hkk] at hk'
    exact h k' e hk' hne p hp

theorem TreeClean_dmodify (tree : List (String × MEntry)) (uniq : List String)
    (k : String) (f : MEntry → MEntry) (hf : ∀ e, pidsOf (f e) = pidsOf e)
    (h : TreeClean tree uniq) : TreeClean (dmodify tree k f) uniq := by
  intro k' e hk' p hp
  rw [alookup_dmodify] at hk'
  by_cases hkk : k' = k
  · rw [if_pos hkk] at hk'
    rcases Option.map_eq_some'.mp hk' with ⟨e', halt, he⟩
    have hp' : p ∈ pidsOf e' := by rw [← he, hf] at hp; exact hp
    exact h k' e' halt p hp'
  · rw [if_neg hkk] at hk'
    exact h k' e hk' p hp

theorem nodup_snds_dinsert {α β : Type} [DecidableEq α] (l : List (α × β)) (k : α) (v : β)
    (h1 : (l.map Prod.snd).Nodup) (h2 : v ∉ l.map Prod.snd) :
    ((dinsert l k v).map Prod.snd).Nodup := by
  induction l with
  | nil => simp [dinsert]
  | cons hd t ih =>
    obtain ⟨a, b⟩ := hd
    rw [List.map_cons, List.nodup_cons] at h1
    rw [List.map_cons, List.mem_cons] at h2
    push_neg at h2
    by_cases hak : a = k
    · subst hak
      rw [dinsert, if_pos rfl, List.map_cons, List.nodup_cons]
      exact ⟨fun hv => h2.2 hv, h1.2⟩
    · rw [dinsert, if_neg hak, List.map_cons, List.nodup_cons]
      refine ⟨fun hb => ?_, ih h1.2 h2.2⟩
      rcases snds_dinsert t k v b hb with hb | hb
      · exact h2.1 hb.symm
      · exact h1.1 hb

theorem attributeParams_frame : ∀ (ps : List (String × Param)) p2i mid (s : RState),
    (attributeParams p2i mid ps s).uniq = s.uniq ∧
    (attributeParams p2i mid ps s).genK = s.genK ∧
    (attributeParams p2i mid ps s).prev_id = s.prev_id ∧
    (attributeParams p2i mid ps s).module_to_id = s.module_to_id := by
  intro ps
  induction ps with
  | nil => intro p2i mid s; exact ⟨rfl, rfl, rfl, rfl⟩
  | cons hd t ih =>
    intro p2i mid s
    obtain ⟨key, p⟩ := hd
    have hstep : attributeParams p2i mid ((key, p) :: t) s = attributeParams p2i mid t
      (if (palookup p2i p.tag).getD "" ∈ s.uniq
       then { s with module_tree :=
                dmodify s.module_tree mid (addParamEntry key ((palookup p2i p.tag).getD "")) }
       else s) := rfl
    rw [hstep]
    obtain ⟨h1, h2, h3, h4⟩ := ih p2i mid
      (if (palookup p2i p.tag).getD "" ∈ s.uniq
       then { s with module_tree :=
                dmodify s.module_tree mid (addParamEntry key ((palookup p2i p.tag).getD "")) }
       else s)
    refine ⟨h1.trans ?_, h2.trans ?_, h3.trans ?_, h4.trans ?_⟩ <;> (split <;> rfl)

theorem pids_addParamEntry (key pid : String) (e : MEntry) (p : String)
    (hp : p ∈ pidsOf (addParamEntry key pid e)) : p = pid ∨ p ∈ pidsOf e :=
  snds_dinsert e.params key pid p hp

theorem attributeParams_spec : ∀ (ps : List (String × Param)) p2i mid (s : RState) (e : MEntry),
    alookup s.module_tree mid = some e →
    TreeDisj s.module_tree →
    CleanExcept s.module_tree s.uniq mid →
    (∀ p, p ∈ pidsOf e → p ∈ s.uniq) →
    TreeDisj (attributeParams p2i mid ps s).module_tree ∧
    CleanExcept (attributeParams p2i mid ps s).module_tree s.uniq mid ∧
    (∃ e', alookup (attributeParams p2i mid ps s).module_tree mid = some e' ∧
       ∀ p, p ∈ pidsOf e' → p ∈ s.uniq) ∧
    (∀ k, k ≠ mid →
       alookup (attributeParams p2i mid ps s).module_tree k = alookup s.module_tree k) := by
  intro ps
  induction ps with
  | nil =>
    intro p2i mid s e he hD hCE hMS
    exact ⟨hD, hCE, ⟨e, he, hMS⟩, fun k _ => rfl⟩
  | cons hd t ih =>
    intro p2i mid s e he hD hCE hMS
    obtain ⟨key, p⟩ := hd
    by_cases hmem : (palookup p2i p.tag).getD "" ∈ s.uniq
    · -- the parameter identifier is still unclaimed: it is attributed here
      set pid := (palookup p2i p.tag).getD "" with hpid
      set s1 : RState :=
        { s with module_tree := dmodify s.module_tree mid (addParamEntry key pid) } with hs1
      have hstep : attributeParams p2i mid ((key, p) :: t) s = attributeParams p2i mid t s1 := by
        show (attributeParams p2i mid t
          (if pid ∈ s.uniq then
            { s with module_tree := dmodify s.module_tree mid (addParamEntry key pid) }
          else s)) = _
        rw [if_pos hmem]
      have he1 : alookup s1.module_tree mid = some (addParamEntry key pid e) := by
        rw [hs1]
        show alookup (dmodify s.module_tree mid (addParamEntry key pid)) mid = _
        rw [alookup_dmodify, if_pos rfl, he]
        rfl
      have hlook1 : ∀ k, k ≠ mid → alookup s1.module_tree k = alookup s.module_tree k := by
        intro k hk
        rw [hs1]
        show alookup (dmodify s.module_tree mid (addParamEntry key pid)) k = _
        rw [alookup_dmodify, if_neg hk]
      have hMS1 : ∀ q, q ∈ pidsOf (addParamEntry key pid e) → q ∈ s.uniq := by
        intro q hq
        rcases pids_addParamEntry key pid e q hq with hq | hq
        · rw [hq]; exact hmem
        · exact hMS q hq
      have hD1 : TreeDisj s1.module_tree := by
        intro k1 k2 e1 e2 hne h1 h2 q hq1
        by_cases hk1 : k1 = mid <;> by_cases hk2 : k2 = mid
        · exact absurd (hk1.trans hk2.symm) hne
        · subst hk1
          rw [he1] at h1
          injection h1 with h1
          subst h1
          have hqu : q ∈ s.uniq := hMS1 q hq1
          rw [hlook1 k2 hk2] at h2
          intro hq2
          exact hCE k2 e2 h2 hk2 q hq2 hqu
        · subst hk2
          rw [he1] at h2
          injection h2 with h2
          subst h2
          rw [hlook1 k1 hk1] at h1
          intro hq2
          exact hCE k1 e1 h1 hk1 q hq1 (hMS1 q hq2)
        · rw [hlook1 k1 hk1] at h1
          rw [hlook1 k2 hk2] at h2
          exact hD k1 k2 e1 e2 hne h1 h2 q hq1
      have hCE1 : CleanExcept s1.module_tree s.uniq mid := by
        intro k e' hk hne q hq
        rw [hlook1 k hne] at hk
        exact hCE k e' hk hne q hq
      have hu1 : s1.uniq = s.uniq := rfl
      rw [hstep]
      have := ih p2i mid s1 (addParamEntry key pid e) he1 hD1 (hu1 ▸ hCE1) (hu1 ▸ hMS1)
      obtain ⟨hDf, hCEf, ⟨ef, hef, hMSf⟩, holdf⟩ := this
      refine ⟨hDf, hu1 ▸ hCEf, ⟨ef, hef, hu1 ▸ hMSf⟩, ?_⟩
      intro k hk
      rw [holdf k hk, hlook1 k hk]
    · have hstep : attributeParams p2i mid ((key, p) :: t) s = attributeParams p2i mid t s := by
        show (attributeParams p2i mid t
          (if (palookup p2i p.tag).getD "" ∈ s.uniq then
            { s with module_tree :=
              dmodify s.module_tree mid (addParamEntry key ((palookup p2i p.tag).getD "")) }
          else s)) = _
        rw [if_neg hmem]
      rw [hstep]
      exact ih p2i mid s e he hD hCE hMS

/-- Precondition of `register_submodules`. -/
def RegPre (s : RState) : Prop :=
  TreeDisj s.module_tree ∧ TreeClean s.module_tree s.uniq ∧
  KeysBound s.module_tree s.genK ∧ s.uniq.Nodup ∧ MVals s

/-- Postcondition of `register_submodules m`: the returned identifier is the
next generator draw, the generator advanced, `prev_id` tracks the last draw,
`unique_param_ids` only shrank, previously registered entries are untouched,
attributed parameter identifiers stay pairwise disjoint across entries and
every entry other than the returned module's is clean. -/
def RegPost (s : RState) (mid : String) (s' : RState) : Prop :=
  mid = allIds s.genK ∧
  s.genK < s'.genK ∧
  s'.prev_id = allIds (s'.genK - 1) ∧
  s'.uniq.Sublist s.uniq ∧
  s'.uniq.Nodup ∧
  KeysBound s'.module_tree s'.genK ∧
  MVals s' ∧
  (∀ k, (∃ i, i < s.genK ∧ k = allIds i) → alookup s'.module_tree k = alookup s.module_tree k) ∧
  TreeDisj s'.module_tree ∧
  CleanExcept s'.module_tree s'.uniq mid ∧
  (alookup s'.module_tree mid).isSome = true ∧
  (∀ v ∈ s'.module_to_id.map Prod.snd,
    v ∈ s.module_to_id.map Prod.snd ∨ ∃ i, s.genK ≤ i ∧ i < s'.genK ∧ v = allIds i)

/-- Loop invariant of the children loop of `register_submodules`: the full
cleanliness invariant holds (the module being built has not attributed any
parameter yet, so its entry is empty). -/
def ChildPre (mid : String) (s : RState) : Prop :=
  RegPre s ∧
  s.prev_id = allIds (s.genK - 1) ∧ 1 ≤ s.genK ∧
  (∃ im, im < s.genK ∧ mid = allIds im) ∧
  (∃ e, alookup s.module_tree mid = some e ∧ e.params = [])

theorem fresh_key_not_in_tree (tree : List (String × MEntry)) (g : Nat)
    (hK : KeysBound tree g) : alookup tree (allIds g) = none := by
  cases halt : alookup tree (allIds g) with
  | none => rfl
  | some e =>
    obtain ⟨i, hi, hk⟩ := hK (allIds g) (by rw [halt]; rfl)
    exact absurd (allIds_injective hk.symm) (by omega)

mutual
theorem registerSub_spec (m : PModule) : ∀ (p2i : List (Param × String)) (s : RState),
    RegPre s → RegPost s (registerSub p2i m s).1 (registerSub p2i m s).2 := by
  intro p2i s hpre
  obtain ⟨r, ps, subs⟩ := m
  obtain ⟨hD, hC, hK, hN, hMV⟩ := hpre
  set mid := allIds s.genK with hmiddef
  set st1 : RState :=
    { module_to_id := dinsert s.module_to_id r mid
      module_tree := dinsert s.module_tree mid ⟨[], []⟩
      uniq := s.uniq
      genK := s.genK + 1
      prev_id := mid } with hst1
  have hg1 : st1.genK = s.genK + 1 := rfl
  have hu1 : st1.uniq = s.uniq := rfl
  have hm2i1 : st1.module_to_id = dinsert s.module_to_id r mid := rfl
  have hpr1 : st1.prev_id = mid := rfl
  have hres : registerSub p2i (.mk r ps subs) s =
      (mid, attributeParams p2i mid ps (registerChildren p2i mid subs st1)) := rfl
  have hlook1 : ∀ k, alookup st1.module_tree k =
      if k = mid then some ⟨[], []⟩ else alookup s.module_tree k := by
    intro k
    show alookup (dinsert s.module_tree mid ⟨[], []⟩) k = _
    rw [alookup_dinsert]
  have hcp1 : ChildPre mid st1 := by
    refine ⟨⟨?_, ?_, ?_, hu1 ▸ hN, ?_⟩, ?_, by omega, ⟨s.genK, by omega, hmiddef⟩,
      ⟨⟨[], []⟩, by rw [hlook1, if_pos rfl], rfl⟩⟩
    · intro k1 k2 e1 e2 hne h1 h2 p hp1
      rw [hlook1] at h1 h2
      by_cases hk1 : k1 = mid <;> by_cases hk2 : k2 = mid
      · exact absurd (hk1.trans hk2.symm) hne
      · rw [if_pos hk1] at h1
        injection h1 with h1
        rw [← h1] at hp1
        simp [pidsOf] at hp1
      · rw [if_pos hk2] at h2
        injection h2 with h2
        rw [← h2]
        simp [pidsOf]
      · rw [if_neg hk1] at h1
        rw [if_neg hk2] at h2
        exact hD k1 k2 e1 e2 hne h1 h2 p hp1
    · intro k e hk p hp
      rw [hlook1] at hk
      by_cases hkm : k = mid
      · rw [if_pos hkm] at hk
        injection hk with hk
        rw [← hk] at hp
        simp [pidsOf] at hp
      · rw [if_neg hkm] at hk
        rw [hu1]
        exact hC k e hk p hp
    · intro k hk
      rw [hlook1] at hk
      by_cases hkm : k = mid
      · exact ⟨s.genK, by omega, hkm⟩
      · rw [if_neg hkm] at hk
        obtain ⟨i, hi, hki⟩ := hK k hk
        exact ⟨i, by omega, hki⟩
    · constructor
      · intro v hv
        rw [hm2i1] at hv
        rcases snds_dinsert s.module_to_id r mid v hv with hv | hv
        · exact ⟨s.genK, by omega, hv⟩
        · obtain ⟨i, hi, hvi⟩ := hMV.1 v hv
          exact ⟨i, by omega, hvi⟩
      · rw [hm2i1]
        apply nodup_snds_dinsert _ _ _ hMV.2
        intro hmem
        obtain ⟨i, hi, hvi⟩ := hMV.1 mid hmem
        exact absurd (allIds_injective hvi.symm) (by omega)
    · rw [hpr1, hg1]
      simp [hmiddef]
  have hrc := registerChildren_spec subs p2i mid st1 hcp1
  set st2 := registerChildren p2i mid subs st1 with hst2
  obtain ⟨hcp2, hgm2, hsub2, hold2, hlb2⟩ := hrc
  obtain ⟨⟨hD2, hC2, hK2, hN2, hMV2⟩, hprev2, hone2, hmidb2, ⟨e2, he2, he2p⟩⟩ := hcp2
  have hframe := attributeParams_frame ps p2i mid st2
  obtain ⟨hfu, hfg, hfp, hfm⟩ := hframe
  have hCE2 : CleanExcept st2.module_tree st2.uniq mid := fun k e hk _ p hp => hC2 k e hk p hp
  have hMS2 : ∀ p, p ∈ pidsOf e2 → p ∈ st2.uniq := by
    intro p hp
    rw [pidsOf, he2p] at hp
    simp at hp
  have hattr := attributeParams_spec ps p2i mid st2 e2 he2 hD2 hCE2 hMS2
  obtain ⟨hD3, hCE3, ⟨e3, he3, hMS3⟩, hold3⟩ := hattr
  set s3 := attributeParams p2i mid ps st2 with hs3
  rw [hres]
  show RegPost s mid s3
  have hglt : s.genK < s3.genK := by rw [hfg]; omega
  refine ⟨hmiddef, hglt, ?_, ?_, ?_, ?_, ?_, ?_, hD3, ?_, ?_, ?_⟩
  · rw [hfp, hfg]
    exact hprev2
  · rw [hfu]
    exact hu1 ▸ hsub2
  · rw [hfu]
    exact hN2
  · intro k hk
    by_cases hkm : k = mid
    · exact ⟨s.genK, by omega, hkm.trans hmiddef⟩
    · rw [hold3 k hkm] at hk
      obtain ⟨i, hi, hki⟩ := hK2 k hk
      rw [hfg]
      exact ⟨i, hi, hki⟩
  · show (∀ v ∈ s3.module_to_id.map Prod.snd, ∃ i, i < s3.genK ∧ v = allIds i) ∧
      (s3.module_to_id.map Prod.snd).Nodup
    rw [hfm, hfg]
    exact hMV2
  · intro k hik
    obtain ⟨i, hi, hki⟩ := hik
    have hkm : k ≠ mid := by
      rw [hki, hmiddef]
      intro h
      exact absurd (allIds_injective h) (by omega)
    rw [hold3 k hkm, hold2 k ⟨i, by omega, hki⟩ hkm, hlook1, if_neg hkm]
  · rw [hfu]
    exact hCE3
  · rw [he3]
    rfl
  · intro v hv
    rw [hfm] at hv
    rcases hlb2 v hv with hv1 | ⟨i, hi1, hi2, hvi⟩
    · rw [hm2i1] at hv1
      rcases snds_dinsert s.module_to_id r mid v hv1 with hv1 | hv1
      · exact Or.inr ⟨s.genK, Nat.le_refl _, by omega, hv1⟩
      · exact Or.inl hv1
    · refine Or.inr ⟨i, by omega, ?_, hvi⟩
      rw [hfg]
      omega
theorem registerChildren_spec (subs : PMods) : ∀ (p2i : List (Param × String)) (mid : String)
    (s : RState), ChildPre mid s →
    ChildPre mid (registerChildren p2i mid subs s) ∧
    s.genK ≤ (registerChildren p2i mid subs s).genK ∧
    (registerChildren p2i mid subs s).uniq.Sublist s.uniq ∧
    (∀ k, (∃ i, i < s.genK ∧ k = allIds i) → k ≠ mid →
      alookup (registerChildren p2i mid subs s).module_tree k = alookup s.module_tree k) ∧
    (∀ v ∈ (registerChildren p2i mid subs s).module_to_id.map Prod.snd,
      v ∈ s.module_to_id.map Prod.snd ∨
        ∃ i, s.genK ≤ i ∧ i < (registerChildren p2i mid subs s).genK ∧ v = allIds i) := by
  intro p2i mid s hcp
  cases subs with
  | nil =>
    exact ⟨hcp, Nat.le_refl _, List.Sublist.refl _, fun k _ _ => rfl, fun v hv => Or.inl hv⟩
  | cons key sub rest =>
    obtain ⟨⟨hD, hC, hK, hN, hMV⟩, hprev, hone, ⟨im, him, hmid⟩, ⟨e0, he0, he0p⟩⟩ := hcp
    have hrs := registerSub_spec sub p2i s ⟨hD, hC, hK, hN, hMV⟩
    set sid := (registerSub p2i sub s).1 with hsiddef
    set sc := (registerSub p2i sub s).2 with hscdef
    obtain ⟨hsid_eq, hg, hprevc, hsubc, hNc, hKc, hMVc, holdc, hDc, hCEc, hsomec, hlbc⟩ := hrs
    have hmidne : mid ≠ sid := by
      rw [hmid, hsid_eq]
      intro h
      exact absurd (allIds_injective h) (by omega)
    have hmidc : alookup sc.module_tree mid = some e0 := by
      rw [holdc mid ⟨im, him, hmid⟩]
      exact he0
    obtain ⟨esid, hesid⟩ : ∃ esid, alookup sc.module_tree sid = some esid := by
      cases h : alookup sc.module_tree sid with
      | none => rw [h] at hsomec; simp at hsomec
      | some e => exact ⟨e, rfl⟩
    set st2 : RState :=
      { sc with module_tree := dmodify sc.module_tree mid (addChildEntry key sid) } with hst2
    have htree2 : st2.module_tree = dmodify sc.module_tree mid (addChildEntry key sid) := rfl
    have hsid2 : alookup st2.module_tree sid = some esid := by
      rw [htree2, alookup_dmodify, if_neg (fun h => hmidne h.symm), hesid]
    have hmid2 : alookup st2.module_tree mid = some (addChildEntry key sid e0) := by
      rw [htree2, alookup_dmodify, if_pos rfl, hmidc]
      rfl
    have heparams : ((alookup st2.module_tree sid).getD ⟨[], []⟩).params = esid.params := by
      rw [hsid2]
      rfl
    set st3 : RState :=
      { st2 with uniq := eraseList st2.uniq (((alookup st2.module_tree sid).getD ⟨[], []⟩).params) }
      with hst3
    have hu3 : st3.uniq = eraseList sc.uniq esid.params := by
      show eraseList st2.uniq (((alookup st2.module_tree sid).getD ⟨[], []⟩).params) = _
      rw [heparams]
    have htree3 : st3.module_tree = st2.module_tree := rfl
    have hg3 : st3.genK = sc.genK := rfl
    have hm3 : st3.module_to_id = sc.module_to_id := rfl
    have hp3 : st3.prev_id = sc.prev_id := rfl
    have hrec : registerChildren p2i mid (.cons key sub rest) s =
        registerChildren p2i mid rest st3 := rfl
    have hcp3 : ChildPre mid st3 := by
      refine ⟨⟨?_, ?_, ?_, ?_, ?_⟩, ?_, by omega, ⟨im, by omega, hmid⟩,
        ⟨addChildEntry key sid e0, by rw [htree3, hmid2], he0p⟩⟩
      · rw [htree3, htree2]
        exact TreeDisj_dmodify _ _ _ (fun e => rfl) hDc
      · intro k e hk p hp
        rw [htree3, htree2, alookup_dmodify] at hk
        rw [hu3]
        by_cases hkm : k = mid
        · rw [if_pos hkm] at hk
          rcases Option.map_eq_some'.mp hk with ⟨e', he', heq⟩
          rw [hkm, hmidc] at he'
          injection he' with he'
          subst he'
          rw [← heq, pidsOf] at hp
          have hparams : (addChildEntry key sid e0).params = e0.params := rfl
          rw [hparams, he0p] at hp
          simp at hp
        · rw [if_neg hkm] at hk
          by_cases hks : k = sid
          · rw [hks, hesid] at hk
            injection hk with hk
            rw [← hk] at hp
            exact mem_eraseList sc.uniq esid.params p hNc hp
          · exact notMem_eraseList sc.uniq esid.params p (hCEc k e hk hks p hp)
      · rw [htree3, htree2, hg3]
        exact KeysBound_dmodify _ _ _ _ hKc
      · rw [hu3]
        exact eraseList_nodup _ _ hNc
      · show (∀ v ∈ st3.module_to_id.map Prod.snd, ∃ i, i < st3.genK ∧ v = allIds i) ∧
          (st3.module_to_id.map Prod.snd).Nodup
        rw [hm3, hg3]
        exact hMVc
      · rw [hp3, hg3]
        exact hprevc
    have hih := registerChildren_spec rest p2i mid st3 hcp3
    obtain ⟨hcpf, hgf, hsubf, holdf, hlbf⟩ := hih
    rw [hrec]
    refine ⟨hcpf, by omega, ?_, ?_, ?_⟩
    · refine hsubf.trans ?_
      rw [hu3]
      exact (eraseList_sublist _ _).trans hsubc
    · intro k hik hkm
      obtain ⟨i, hi, hki⟩ := hik
      have hks : k ≠ sid := by
        rw [hki, hsid_eq]
        intro h
        exact absurd (allIds_injective h) (by omega)
      rw [holdf k ⟨i, by omega, hki⟩ hkm, htree3, htree2, alookup_dmodify, if_neg hkm,
        holdc k ⟨i, hi, hki⟩]
    · intro v hv
      rcases hlbf v hv with hv1 | ⟨i, hi1, hi2, hvi⟩
      · rw [hm3] at hv1
        rcases hlbc v hv1 with hv2 | ⟨i, hi1, hi2, hvi⟩
        · exact Or.inl hv2
        · exact Or.inr ⟨i, hi1, by omega, hvi⟩
      · rw [hg3] at hi1
        exact Or.inr ⟨i, by omega, hi2, hvi⟩
end

theorem allocParams_spec : ∀ (ps : List Param) (k : Nat) (prev : String),
    (allocParams ps k prev).1.map Prod.snd =
      (List.range ps.length).map (fun j => allIds (k + j)) ∧
    (allocParams ps k prev).2.1 = (allocParams ps k prev).1.map Prod.snd ∧
    (allocParams ps k prev).2.2.1 = k + ps.length := by
  intro ps
  induction ps with
  | nil => intro k prev; exact ⟨rfl, rfl, rfl⟩
  | cons p t ih =>
    intro k prev
    obtain ⟨ih1, ih2, ih3⟩ := ih (k + 1) (allIds k)
    refine ⟨?_, ?_, ?_⟩
    · show allIds k :: (allocParams t (k + 1) (allIds k)).1.map Prod.snd = _
      rw [ih1, List.length_cons, List.range_succ_eq_map, List.map_cons, List.map_map]
      congr 1
      apply List.map_congr_left
      intro j _
      show allIds (k + 1 + j) = allIds (k + (j + 1))
      congr 1
      omega
    · show allIds k :: (allocParams t (k + 1) (allIds k)).2.1 =
        allIds k :: (allocParams t (k + 1) (allIds k)).1.map Prod.snd
      rw [ih2]
    · show (allocParams t (k + 1) (allIds k)).2.2.1 = k + (p :: t).length
      rw [ih3, List.length_cons]
      omega

/-- The facts about `initGraph` needed by the attribution-uniqueness and
identifier-distinctness theorems: the parameter identifiers are the first
`P` generator draws, disjointness of attributed parameter identifiers holds
in the module tree, the `module_to_id` values are later draws, pairwise
distinct, and `prev_id` is the overall last draw. -/
theorem initGraph_inv (root : PModule) (dl : Option (List ITensor × Unit)) :
    TreeDisj (initGraph root dl).module_tree ∧
    (initGraph root dl).param_to_id.map Prod.snd =
      (List.range root.parameters.length).map (fun j => allIds j) ∧
    ((initGraph root dl).module_to_id.map Prod.snd).Nodup ∧
    (∃ g, root.parameters.length < g ∧ (initGraph root dl).prev_id = allIds (g - 1) ∧
      (∀ v ∈ (initGraph root dl).module_to_id.map Prod.snd,
        ∃ i, root.parameters.length ≤ i ∧ i < g ∧ v = allIds i)) := by
  obtain ⟨ha1, ha2, ha3⟩ := allocParams_spec root.parameters 0 ""
  set a := allocParams root.parameters 0 "" with hadef
  set P := root.parameters.length with hP
  set rst0 : RState := ⟨[], [], a.2.1, a.2.2.1, a.2.2.2⟩ with hrst0
  have hpre : RegPre rst0 := by
    refine ⟨?_, ?_, ?_, ?_, ?_, ?_⟩
    · intro k1 k2 e1 e2 hne h1 h2
      simp [alookup] at h1
    · intro k e hk
      simp [alookup] at hk
    · intro k hk
      simp [alookup] at hk
    · show a.2.1.Nodup
      rw [ha2, ha1]
      apply List.Nodup.map
      · intro x y hxy
        have h2 := allIds_injective hxy
        omega
      · exact List.nodup_range _
    · intro v hv
      simp at hv
    · show (([] : List (MRef × String)).map Prod.snd).Nodup
      simp
  have hreg := registerSub_spec root a.1 rst0 hpre
  set rr := registerSub a.1 root rst0 with hrr
  obtain ⟨hmid_eq, hg, hprev, hsub, hN, hK, hMV, hold, hDr, hCE, hsome, hlb⟩ := hreg
  have hg0 : rst0.genK = P := by
    show a.2.2.1 = P
    rw [ha3]
    omega
  have htree_eq : (initGraph root dl).module_tree = rr.2.module_tree := rfl
  have hm2i_eq : (initGraph root dl).module_to_id = rr.2.module_to_id := rfl
  have hp2i_eq : (initGraph root dl).param_to_id = a.1 := rfl
  have hprev_eq : (initGraph root dl).prev_id = rr.2.prev_id := rfl
  refine ⟨?_, ?_, ?_, ?_⟩
  · rw [htree_eq]
    exact hDr
  · rw [hp2i_eq, ha1]
    apply List.map_congr_left
    intro j _
    show allIds (0 + j) = allIds j
    congr 1
    omega
  · rw [hm2i_eq]
    exact hMV.2
  · refine ⟨rr.2.genK, by omega, ?_, ?_⟩
    · rw [hprev_eq]
      exact hprev
    · rw [hm2i_eq]
      intro v hv
      rcases hlb v hv with hv1 | ⟨i, hi1, hi2, hvi⟩
      · simp at hv1
      · rw [hg0] at hi1
        exact ⟨i, hi1, hi2, hvi⟩

/-- C3 (amended): tree registration attributes each parameter identifier to
at most one module's `params` map — the first directly-owning module
completed in depth-first traversal order — so the maps of distinct modules
are pairwise disjoint for every module hierarchy; in the spec's
parent/child sharing scenario (`modA` owns `pAB` and so does its child
`modB`) the identifier goes to the child's map and not the parent's. -/
theorem params_attributed_once :
    (∀ root dl k1 k2 e1 e2 p, k1 ≠ k2 →
      alookup (initGraph root dl).module_tree k1 = some e1 →
      alookup (initGraph root dl).module_tree k2 = some e2 →
      p ∈ pidsOf e1 → p ∉ pidsOf e2) ∧
    (mlookup (initGraph modA none).module_to_id 12 = some "b" ∧
     mlookup (initGraph modA none).module_to_id 11 = some "c" ∧
     (initGraph modA none).param_to_id = [(pAB, "a")] ∧
     ((alookup (initGraph modA none).module_tree "c").getD ⟨[], []⟩).params = [("w", "a")] ∧
     ((alookup (initGraph modA none).module_tree "b").getD ⟨[], []⟩).params = []) := by
  constructor
  · intro root dl k1 k2 e1 e2 p hne h1 h2 hp
    exact (initGraph_inv root dl).1 k1 k2 e1 e2 hne h1 h2 p hp
  · exact ⟨rfl, rfl, rfl, rfl, rfl⟩

/-- Witness for C3 (amended): in the two-branch sharing tree the entry of
module `"c"` owns `"a"` and the entry of module `"e"` therefore cannot. -/
theorem params_attributed_once_witness :
    ("a" : String) ∉ pidsOf ⟨[], []⟩ :=
  params_attributed_once.1 exRoot3 none "c" "e" ⟨[], [("w", "a")]⟩ ⟨[], []⟩ "a"
    (by decide) (by decide) (by decide) (by decide)

/-! ### Forward-pass identifier invariants -/

theorem fsts_dinsert {α β : Type} [DecidableEq α] (l : List (α × β)) (k : α) (v : β)
    (x : α) (hx : x ∈ (dinsert l k v).map Prod.fst) : x = k ∨ x ∈ l.map Prod.fst := by
  induction l with
  | nil =>
    simp only [dinsert, List.map_cons, List.map_nil, List.mem_singleton] at hx
    exact Or.inl hx
  | cons hd t ih =>
    obtain ⟨a, b⟩ := hd
    by_cases hak : a = k
    · subst hak
      rw [dinsert, if_pos rfl, List.map_cons, List.mem_cons] at hx
      rcases hx with hx | hx
      · exact Or.inl hx
      · exact Or.inr (by rw [List.map_cons, List.mem_cons]; exact Or.inr hx)
    · rw [dinsert, if_neg hak, List.map_cons, List.mem_cons] at hx
      rcases hx with hx | hx
      · exact Or.inr (by rw [List.map_cons, List.mem_cons]; exact Or.inl hx)
      · rcases ih hx with hx | hx
        · exact Or.inl hx
        · exact Or.inr (by rw [List.map_cons, List.mem_cons]; exact Or.inr hx)

theorem nodup_fsts_dinsert {α β : Type} [DecidableEq α] (l : List (α × β)) (k : α) (v : β)
    (h1 : (l.map Prod.fst).Nodup) : ((dinsert l k v).map Prod.fst).Nodup := by
  induction l with
  | nil => simp [dinsert]
  | cons hd t ih =>
    obtain ⟨a, b⟩ := hd
    rw [List.map_cons, List.nodup_cons] at h1
    by_cases hak : a = k
    · subst hak
      rw [dinsert, if_pos rfl, List.map_cons, List.nodup_cons]
      exact h1
    · rw [dinsert, if_neg hak, List.map_cons, List.nodup_cons]
      refine ⟨fun ha => ?_, ih h1.2⟩
      rcases fsts_dinsert t k v a ha with ha | ha
      · exact hak ha
      · exact h1.1 ha

theorem length_dinsert_fresh {α β : Type} [DecidableEq α] (l : List (α × β)) (k : α) (v : β)
    (h : k ∉ l.map Prod.fst) : (dinsert l k v).length = l.length + 1 := by
  induction l with
  | nil => rfl
  | cons hd t ih =>
    obtain ⟨a, b⟩ := hd
    rw [List.map_cons, List.mem_cons] at h
    push_neg at h
    rw [dinsert, if_neg (fun he => h.1 he.symm), List.length_cons, List.length_cons,
      ih h.2]

theorem fsts_dmodify {α β : Type} [DecidableEq α] (l : List (α × β)) (k : α) (f : β → β) :
    (dmodify l k f).map Prod.fst = l.map Prod.fst := by
  induction l with
  | nil => rfl
  | cons hd t ih =>
    obtain ⟨a, b⟩ := hd
    by_cases hak : a = k
    · rw [dmodify, if_pos hak, List.map_cons, List.map_cons]
    · rw [dmodify, if_neg hak, List.map_cons, List.map_cons, ih]

theorem length_dmodify {α β : Type} [DecidableEq α] (l : List (α × β)) (k : α) (f : β → β) :
    (dmodify l k f).length = l.length := by
  induction l with
  | nil => rfl
  | cons hd t ih =>
    obtain ⟨a, b⟩ := hd
    by_cases hak : a = k
    · rw [dmodify, if_pos hak, List.length_cons, List.length_cons]
    · rw [dmodify, if_neg hak, List.length_cons, List.length_cons, ih]

/-- Invariant of the per-call fill state: every functional-graph key was
drawn from the resumed generator before its current position, the keys are
pairwise distinct, and the snapshot holds exactly one entry per draw
(so no draw ever overwrote an earlier entry). -/
def FKeysInv (fst : FState) : Prop :=
  (∀ k ∈ fst.functional_graph.map Prod.fst, ∃ j, j < fst.genK ∧ k = allIds (fst.base + j)) ∧
  (fst.functional_graph.map Prod.fst).Nodup ∧
  fst.functional_graph.length = fst.genK

theorem allocNode_fresh (fst : FState) (h : FKeysInv fst) :
    allIds (fst.base + fst.genK) ∉ fst.functional_graph.map Prod.fst := by
  intro hmem
  obtain ⟨j, hj, hkj⟩ := h.1 _ hmem
  exact absurd (allIds_injective hkj.symm) (by omega)

theorem allocNode_inv (pid : String) (key : NKey) (ty : String) (fst : FState)
    (h : FKeysInv fst) : FKeysInv (allocNode pid key ty fst) ∧
    (allocNode pid key ty fst).genK = fst.genK + 1 ∧
    (allocNode pid key ty fst).base = fst.base := by
  refine ⟨⟨?_, ?_, ?_⟩, rfl, rfl⟩
  · intro k hk
    show ∃ j, j < fst.genK + 1 ∧ k = allIds (fst.base + j)
    have hk' : k ∈ (dinsert fst.functional_graph (allIds (fst.base + fst.genK))
        ⟨ty, [], some pid⟩).map Prod.fst := hk
    rcases fsts_dinsert _ _ _ k hk' with hk1 | hk1
    · exact ⟨fst.genK, by omega, hk1⟩
    · obtain ⟨j, hj, hkj⟩ := h.1 k hk1
      exact ⟨j, by omega, hkj⟩
  · exact nodup_fsts_dinsert _ _ _ h.2.1
  · show (dinsert fst.functional_graph (allIds (fst.base + fst.genK))
        ⟨ty, [], some pid⟩).length = fst.genK + 1
    rw [length_dinsert_fresh _ _ _ (allocNode_fresh fst h), h.2.2]

mutual
theorem fillFG_inv (node : ANode) : ∀ (pid : String) (fst : FState), FKeysInv fst →
    FKeysInv (fillFG pid node fst) ∧ fst.genK ≤ (fillFG pid node fst).genK ∧
    (fillFG pid node fst).base = fst.base := by
  intro pid fst hinv
  cases node with
  | leafParam p =>
    by_cases hg : (alookup fst.node_to_id (NKey.param p.tag)).isSome
    · have hstep : fillFG pid (.leafParam p) fst = fst := by simp [fillFG, hg]
      rw [hstep]
      exact ⟨hinv, Nat.le_refl _, rfl⟩
    · have hstep : fillFG pid (.leafParam p) fst =
          allocNode pid (NKey.param p.tag) "Parameter" fst := by simp [fillFG, hg]
      rw [hstep]
      obtain ⟨h1, h2, h3⟩ := allocNode_inv pid (NKey.param p.tag) "Parameter" fst hinv
      exact ⟨h1, by omega, h3⟩
  | leafVar t ty =>
    by_cases hg : (alookup fst.node_to_id (NKey.obj t)).isSome
    · have hstep : fillFG pid (.leafVar t ty) fst = fst := by simp [fillFG, hg]
      rw [hstep]
      exact ⟨hinv, Nat.le_refl _, rfl⟩
    · have hstep : fillFG pid (.leafVar t ty) fst =
          allocNode pid (NKey.obj t) ty fst := by simp [fillFG, hg]
      rw [hstep]
      obtain ⟨h1, h2, h3⟩ := allocNode_inv pid (NKey.obj t) ty fst hinv
      exact ⟨h1, by omega, h3⟩
  | op t ty prevs =>
    by_cases hg : (alookup fst.node_to_id (NKey.obj t)).isSome
    · have hstep : fillFG pid (.op t ty prevs) fst = fst := by simp [fillFG, hg]
      rw [hstep]
      exact ⟨hinv, Nat.le_refl _, rfl⟩
    · have hstep : fillFG pid (.op t ty prevs) fst =
          fillDeps pid (allIds (fst.base + fst.genK)) prevs
            (allocNode pid (NKey.obj t) ty fst) := by simp [fillFG, hg]
      rw [hstep]
      obtain ⟨h1, h2, h3⟩ := allocNode_inv pid (NKey.obj t) ty fst hinv
      obtain ⟨h4, h5, h6⟩ := fillDeps_inv prevs pid (allIds (fst.base + fst.genK))
        (allocNode pid (NKey.obj t) ty fst) h1
      exact ⟨h4, by omega, by rw [h6, h3]⟩
theorem fillDeps_inv (deps : ANodes) : ∀ (pid nid : String) (fst : FState), FKeysInv fst →
    FKeysInv (fillDeps pid nid deps fst) ∧ fst.genK ≤ (fillDeps pid nid deps fst).genK ∧
    (fillDeps pid nid deps fst).base = fst.base := by
  intro pid nid fst hinv
  cases deps with
  | nil =>
    have hstep : fillDeps pid nid .nil fst = fst := rfl
    rw [hstep]
    exact ⟨hinv, Nat.le_refl _, rfl⟩
  | cons d rest =>
    obtain ⟨h1, h2, h3⟩ := fillFG_inv d pid fst hinv
    set fst1 := fillFG pid d fst with hfst1
    set did := (alookup fst1.node_to_id (keyOf d)).getD "" with hdid
    set fst2 : FState := { fst1 with
      functional_graph := dmodify fst1.functional_graph nid (addDepEntry did) } with hfst2
    have hstep : fillDeps pid nid (.cons d rest) fst = fillDeps pid nid rest fst2 := rfl
    have hg2 : fst2.genK = fst1.genK := rfl
    have hb2 : fst2.base = fst1.base := rfl
    have hinv2 : FKeysInv fst2 := by
      refine ⟨?_, ?_, ?_⟩
      · intro k hk
        have hk' : k ∈ (dmodify fst1.functional_graph nid (addDepEntry did)).map Prod.fst := hk
        rw [fsts_dmodify] at hk'
        exact h1.1 k hk'
      · show ((dmodify fst1.functional_graph nid (addDepEntry did)).map Prod.fst).Nodup
        rw [fsts_dmodify]
        exact h1.2.1
      · show (dmodify fst1.functional_graph nid (addDepEntry did)).length = fst1.genK
        rw [length_dmodify]
        exact h1.2.2
    obtain ⟨h4, h5, h6⟩ := fillDeps_inv rest pid nid fst2 hinv2
    rw [hstep]
    exact ⟨h4, by omega, by rw [h6, hb2]; exact h3⟩
end

theorem addInputs_inv : ∀ (ts : List ITensor) (fst : FState), FKeysInv fst →
    FKeysInv (addInputs ts fst) ∧ fst.genK ≤ (addInputs ts fst).genK ∧
    (addInputs ts fst).base = fst.base := by
  intro ts
  induction ts with
  | nil => intro fst hinv; exact ⟨hinv, Nat.le_refl _, rfl⟩
  | cons t rest ih =>
    intro fst hinv
    set fst1 : FState :=
      { node_to_id := dinsert fst.node_to_id (NKey.obj t.tag) (allIds (fst.base + fst.genK))
        functional_graph := dinsert fst.functional_graph (allIds (fst.base + fst.genK))
          ⟨inputTyStr t, [], none⟩
        genK := fst.genK + 1
        base := fst.base } with hfst1
    have hstep : addInputs (t :: rest) fst = addInputs rest fst1 := rfl
    have hg1 : fst1.genK = fst.genK + 1 := rfl
    have hb1 : fst1.base = fst.base := rfl
    have hinv1 : FKeysInv fst1 := by
      refine ⟨?_, ?_, ?_⟩
      · intro k hk
        show ∃ j, j < fst.genK + 1 ∧ k = allIds (fst.base + j)
        have hk' : k ∈ (dinsert fst.functional_graph (allIds (fst.base + fst.genK))
            ⟨inputTyStr t, [], none⟩).map Prod.fst := hk
        rcases fsts_dinsert _ _ _ k hk' with hk1 | hk1
        · exact ⟨fst.genK, by omega, hk1⟩
        · obtain ⟨j, hj, hkj⟩ := hinv.1 k hk1
          exact ⟨j, by omega, hkj⟩
      · exact nodup_fsts_dinsert _ _ _ hinv.2.1
      · show (dinsert fst.functional_graph (allIds (fst.base + fst.genK))
            ⟨inputTyStr t, [], none⟩).length = fst.genK + 1
        rw [length_dinsert_fresh _ _ _ (allocNode_fresh fst hinv), hinv.2.2]
    obtain ⟨h1, h2, h3⟩ := ih fst1 hinv1
    rw [hstep]
    exact ⟨h1, by omega, by rw [h3, hb1]⟩

theorem runHooks_inv : ∀ (events : List (Nat × ANode)) (m2i : List (MRef × String))
    (acc : List String × FState), FKeysInv acc.2 →
    FKeysInv (runHooks m2i events acc).2 ∧ acc.2.genK ≤ (runHooks m2i events acc).2.genK ∧
    (runHooks m2i events acc).2.base = acc.2.base := by
  intro events
  induction events with
  | nil => intro m2i acc hinv; exact ⟨hinv, Nat.le_refl _, rfl⟩
  | cons ev rest ih =>
    intro m2i acc hinv
    obtain ⟨mtag, creator⟩ := ev
    have hstep : runHooks m2i ((mtag, creator) :: rest) acc =
        runHooks m2i rest (forward_hook m2i mtag creator acc) := rfl
    obtain ⟨h1, h2, h3⟩ := fillFG_inv creator ((mlookup m2i mtag).getD "") acc.2 hinv
    have hfh : (forward_hook m2i mtag creator acc).2 =
        fillFG ((mlookup m2i mtag).getD "") creator acc.2 := rfl
    obtain ⟨h4, h5, h6⟩ := ih m2i (forward_hook m2i mtag creator acc) (by rw [hfh]; exact h1)
    rw [hstep]
    refine ⟨h4, ?_, ?_⟩
    · rw [hfh] at h5
      omega
    · rw [h6, hfh, h3]

theorem finalInsert_keys (fst : FState) (h : FKeysInv fst) (e : FEntry) :
    ((dinsert fst.functional_graph (allIds (fst.base + fst.genK)) e).map Prod.fst).Nodup ∧
    (∀ k ∈ (dinsert fst.functional_graph (allIds (fst.base + fst.genK)) e).map Prod.fst,
      ∃ j, k = allIds (fst.base + j)) := by
  constructor
  · exact nodup_fsts_dinsert _ _ _ h.2.1
  · intro k hk
    rcases fsts_dinsert _ _ _ k hk with hk | hk
    · exact ⟨fst.genK, hk⟩
    · obtain ⟨j, _, hkj⟩ := h.1 k hk
      exact ⟨j, hkj⟩

theorem mergeIds_inv (st : GState) :
    FKeysInv ⟨mergeIds st.param_to_id st.module_to_id, [], 0, strVal st.prev_id⟩ := by
  refine ⟨?_, ?_, rfl⟩
  · intro k hk
    simp at hk
  · simp

theorem forwardErrorFG_keys (st : GState) (inputs : List ITensor) :
    ((addInputs inputs
        ⟨mergeIds st.param_to_id st.module_to_id, [], 0,
          strVal st.prev_id⟩).functional_graph.map Prod.fst).Nodup ∧
    (∀ (k : String) (x : FEntry),
      (k, x) ∈ (addInputs inputs
        ⟨mergeIds st.param_to_id st.module_to_id, [], 0, strVal st.prev_id⟩).functional_graph →
      ∃ j, k = allIds (strVal st.prev_id + j)) := by
  obtain ⟨hinv1, _, hbase1⟩ := addInputs_inv inputs _ (mergeIds_inv st)
  refine ⟨hinv1.2.1, ?_⟩
  intro k x hkx
  obtain ⟨j, _, hkj⟩ := hinv1.1 k (List.mem_map.mpr ⟨(k, x), hkx, rfl⟩)
  rw [hbase1] at hkj
  exact ⟨j, hkj⟩

theorem hookState_inv (st : GState) (inputs : List ITensor) (fo : FwdOk) :
    FKeysInv (forward_hook st.module_to_id st.rootRef.tag fo.resCreator
      (runHooks st.module_to_id fo.events
        ([], addInputs inputs
          ⟨mergeIds st.param_to_id st.module_to_id, [], 0, strVal st.prev_id⟩))).2 ∧
    (forward_hook st.module_to_id st.rootRef.tag fo.resCreator
      (runHooks st.module_to_id fo.events
        ([], addInputs inputs
          ⟨mergeIds st.param_to_id st.module_to_id, [], 0,
            strVal st.prev_id⟩))).2.base = strVal st.prev_id := by
  obtain ⟨hinv1, _, hbase1⟩ := addInputs_inv inputs _ (mergeIds_inv st)
  obtain ⟨hinv2, _, hbase2⟩ := runHooks_inv fo.events st.module_to_id
    ([], addInputs inputs ⟨mergeIds st.param_to_id st.module_to_id, [], 0, strVal st.prev_id⟩)
    hinv1
  obtain ⟨hinv3, _, hbase3⟩ := fillFG_inv fo.resCreator
    ((mlookup st.module_to_id st.rootRef.tag).getD "")
    (runHooks st.module_to_id fo.events
      ([], addInputs inputs
        ⟨mergeIds st.param_to_id st.module_to_id, [], 0, strVal st.prev_id⟩)).2 hinv2
  refine ⟨hinv3, ?_⟩
  show (fillFG ((mlookup st.module_to_id st.rootRef.tag).getD "") fo.resCreator
      (runHooks st.module_to_id fo.events
        ([], addInputs inputs
          ⟨mergeIds st.param_to_id st.module_to_id, [], 0, strVal st.prev_id⟩)).2).base =
    strVal st.prev_id
  rw [hbase3, hbase2]
  exact hbase1

theorem forwardOkFG_keys (fstA : FState) (B : Nat) (hinvA : FKeysInv fstA)
    (hbaseA : fstA.base = B) (e : FEntry) :
    ((dinsert fstA.functional_graph (allIds (fstA.base + fstA.genK)) e).map Prod.fst).Nodup ∧
    (∀ (k : String) (x : FEntry),
      (k, x) ∈ dinsert fstA.functional_graph (allIds (fstA.base + fstA.genK)) e →
      ∃ j, k = allIds (B + j)) := by
  obtain ⟨hn, hc⟩ := finalInsert_keys fstA hinvA e
  refine ⟨hn, ?_⟩
  intro k x hkx
  obtain ⟨j, hkj⟩ := hc k (List.mem_map.mpr ⟨(k, x), hkx, rfl⟩)
  rw [hbaseA] at hkj
  exact ⟨j, hkj⟩

theorem instrumentedForward_keys : ∀ (fwd : List ITensor → Except Unit FwdOk) (st : GState)
    (inputs0 : List ITensor),
    ((instrumentedForward fwd st inputs0).1.functional_graph.map Prod.fst).Nodup ∧
    (∀ k ∈ (instrumentedForward fwd st inputs0).1.functional_graph.map Prod.fst,
      ∃ j, k = allIds (strVal st.prev_id + j)) := by
  intro fwd st inputs0
  rcases inputs0 with _ | ⟨t0, ts⟩
  · rcases hdl : st.dataloader with _ | b
    · simp [instrumentedForward, hdl]
    · rcases hf : fwd b.1 with _ | fo
      · simp only [instrumentedForward]
        simp [hdl, hf]
        exact forwardErrorFG_keys st b.1
      · obtain ⟨hinvA, hbaseA⟩ := hookState_inv st b.1 fo
        simp only [instrumentedForward]
        simp [hdl, hf]
        exact ⟨(forwardOkFG_keys _ _ hinvA hbaseA _).1,
          fun k x hkx => (forwardOkFG_keys _ _ hinvA hbaseA _).2 k x hkx⟩
  · rcases hf : fwd (t0 :: ts) with _ | fo
    · simp only [instrumentedForward]
      simp [hf]
      exact forwardErrorFG_keys st (t0 :: ts)
    · obtain ⟨hinvA, hbaseA⟩ := hookState_inv st (t0 :: ts) fo
      simp only [instrumentedForward]
      simp [hf]
      exact ⟨(forwardOkFG_keys _ _ hinvA hbaseA _).1,
        fun k x hkx => (forwardOkFG_keys _ _ hinvA hbaseA _).2 k x hkx⟩

/-- C4 (amended): within tree registration and any single instrumented
forward call no identifier is reused — registration identifiers
(parameters, then modules) are pairwise distinct, the identifiers keying the
forward call's functional-graph snapshot are pairwise distinct, and the two
sets are disjoint (the forward generator resumes strictly after `prev_id`,
the last registration draw).  Across successive calls `prev_id` is never
advanced, so each call re-issues the same range into its fresh snapshot
(see the counterexample). -/
theorem ids_distinct_within_call :
    ∀ root dl fwd inputs0,
      ((initGraph root dl).param_to_id.map Prod.snd ++
        (initGraph root dl).module_to_id.map Prod.snd).Nodup ∧
      ((instrumentedForward fwd (initGraph root dl) inputs0).1.functional_graph.map
        Prod.fst).Nodup ∧
      (∀ k ∈ (instrumentedForward fwd (initGraph root dl) inputs0).1.functional_graph.map
          Prod.fst,
        k ∉ (initGraph root dl).param_to_id.map Prod.snd ∧
        k ∉ (initGraph root dl).module_to_id.map Prod.snd) := by
  intro root dl fwd inputs0
  obtain ⟨_, hparam, hmnodup, ⟨g, hgP, hprev, hmbound⟩⟩ := initGraph_inv root dl
  obtain ⟨hfnodup, hfchar⟩ := instrumentedForward_keys fwd (initGraph root dl) inputs0
  have hstrval : strVal (initGraph root dl).prev_id = g := by
    rw [hprev, strVal_allIds]
    omega
  have hparam_mem : ∀ x ∈ (initGraph root dl).param_to_id.map Prod.snd,
      ∃ j, j < root.parameters.length ∧ x = allIds j := by
    intro x hx
    rw [hparam] at hx
    obtain ⟨j, hjr, hj⟩ := List.mem_map.mp hx
    exact ⟨j, List.mem_range.mp hjr, hj.symm⟩
  refine ⟨?_, hfnodup, ?_⟩
  · refine List.Nodup.append ?_ hmnodup ?_
    · rw [hparam]
      exact List.Nodup.map (fun a b h => allIds_injective h) (List.nodup_range _)
    · intro x hx hx2
      obtain ⟨j, hj, hxj⟩ := hparam_mem x hx
      obtain ⟨i, hiP, _, hxi⟩ := hmbound x hx2
      rw [hxj] at hxi
      have := allIds_injective hxi
      omega
  · intro k hk
    obtain ⟨j, hkj⟩ := hfchar k hk
    rw [hstrval] at hkj
    constructor
    · intro hmem
      obtain ⟨j', hj', hkj'⟩ := hparam_mem k hmem
      rw [hkj] at hkj'
      have := allIds_injective hkj'
      omega
    · intro hmem
      obtain ⟨i, _, hig, hki⟩ := hmbound k hmem
      rw [hkj] at hki
      have := allIds_injective hki
      omega

theorem dinsert_fresh_append {α β : Type} [DecidableEq α] (l : List (α × β)) (k : α) (v : β)
    (h : k ∉ l.map Prod.fst) : dinsert l k v = l ++ [(k, v)] := by
  induction l with
  | nil => rfl
  | cons hd t ih =>
    obtain ⟨a, b⟩ := hd
    rw [List.map_cons, List.mem_cons] at h
    push_neg at h
    rw [dinsert, if_neg (fun he => h.1 he.symm), List.cons_append, ih h.2]

theorem foldl_dinsert_eq {α β γ : Type} [DecidableEq α] :
    ∀ (src : List γ) (key : γ → α) (val : γ → β) (acc : List (α × β)),
      (∀ x ∈ src.map key, x ∉ acc.map Prod.fst) →
      (src.map key).Nodup →
      src.foldl (fun l g => dinsert l (key g) (val g)) acc =
        acc ++ src.map (fun g => (key g, val g)) := by
  intro src
  induction src with
  | nil => intro key val acc _ _; simp
  | cons g t ih =>
    intro key val acc hfresh hnodup
    rw [List.map_cons, List.nodup_cons] at hnodup
    have hkg : key g ∉ acc.map Prod.fst := hfresh (key g) (by rw [List.map_cons]; simp)
    have hstep : (g :: t).foldl (fun l x => dinsert l (key x) (val x)) acc =
        t.foldl (fun l x => dinsert l (key x) (val x)) (dinsert acc (key g) (val g)) := rfl
    rw [hstep, dinsert_fresh_append acc (key g) (val g) hkg]
    rw [ih key val (acc ++ [(key g, val g)]) ?_ hnodup.2]
    · rw [List.map_cons, List.append_assoc]
      rfl
    · intro x hx
      rw [List.map_append, List.mem_append]
      push_neg
      constructor
      · exact hfresh x (by rw [List.map_cons]; exact List.mem_cons_of_mem _ hx)
      · simp only [List.map_cons, List.map_nil, List.mem_singleton]
        intro he
        exact hnodup.1 (he ▸ hx)

/-- C7 (amended): under pairwise-distinct identifiers, `serialize` produces
exactly one record per module, parameter and functional-graph entry, in that
order; module records are tagged `Module` and carry the tree entry's
`params` and `children` maps, parameter records are tagged `Parameter` with
element-type name and shape, and every functional-graph record — operation
nodes and the synthetic Input/Output boundary nodes alike — is tagged
`Function` with its dependency list and owning-module identifier; every
record's tag is one of `Module`, `Parameter`, `Function`. -/
theorem serialize_record_forms (st : GState)
    (hm : (st.module_to_id.map Prod.snd).Nodup)
    (hp : (st.param_to_id.map Prod.snd).Nodup)
    (hf : (st.functional_graph.map Prod.fst).Nodup)
    (hpm : ∀ x ∈ st.param_to_id.map Prod.snd, x ∉ st.module_to_id.map Prod.snd)
    (hfm : ∀ x ∈ st.functional_graph.map Prod.fst, x ∉ st.module_to_id.map Prod.snd)
    (hfp : ∀ x ∈ st.functional_graph.map Prod.fst, x ∉ st.param_to_id.map Prod.snd) :
    serialize st =
      st.module_to_id.map (fun mi => (mi.2,
        SRec.module mi.1.tyName ((alookup st.module_tree mi.2).getD ⟨[], []⟩).params
          ((alookup st.module_tree mi.2).getD ⟨[], []⟩).children)) ++
      st.param_to_id.map (fun pi => (pi.2, SRec.parameter pi.1.tyName pi.1.shape)) ++
      st.functional_graph.map (fun fe => (fe.1,
        SRec.function fe.2.ty fe.2.dependencies fe.2.parent_module)) ∧
    (∀ pr ∈ serialize st,
      (pr.2 : SRec).tag = "Module" ∨ pr.2.tag = "Parameter" ∨ pr.2.tag = "Function") := by
  have hkeyM : st.module_to_id.map (fun mi => mi.2) = st.module_to_id.map Prod.snd := rfl
  have hkeyP : st.param_to_id.map (fun pi => pi.2) = st.param_to_id.map Prod.snd := rfl
  have hkeyF : st.functional_graph.map (fun fe => fe.1) = st.functional_graph.map Prod.fst := rfl
  set LM := st.module_to_id.map (fun mi => (mi.2,
    SRec.module mi.1.tyName ((alookup st.module_tree mi.2).getD ⟨[], []⟩).params
      ((alookup st.module_tree mi.2).getD ⟨[], []⟩).children)) with hLM
  set LP := st.param_to_id.map
    (fun pi => (pi.2, SRec.parameter pi.1.tyName pi.1.shape)) with hLP
  set LF := st.functional_graph.map (fun fe => (fe.1,
    SRec.function fe.2.ty fe.2.dependencies fe.2.parent_module)) with hLF
  have hLMkeys : LM.map Prod.fst = st.module_to_id.map Prod.snd := by
    rw [hLM, List.map_map]
    rfl
  have hLPkeys : LP.map Prod.fst = st.param_to_id.map Prod.snd := by
    rw [hLP, List.map_map]
    rfl
  have h1 : st.module_to_id.foldl
      (fun acc mi =>
        dinsert acc mi.2 (SRec.module mi.1.tyName
          ((alookup st.module_tree mi.2).getD ⟨[], []⟩).params
          ((alookup st.module_tree mi.2).getD ⟨[], []⟩).children)) [] = LM := by
    have := foldl_dinsert_eq st.module_to_id (fun mi => mi.2)
      (fun mi => SRec.module mi.1.tyName ((alookup st.module_tree mi.2).getD ⟨[], []⟩).params
        ((alookup st.module_tree mi.2).getD ⟨[], []⟩).children) []
      (by intro x _ hx; simp at hx) (hkeyM ▸ hm)
    rw [this]
    rfl
  have h2 : st.param_to_id.foldl
      (fun acc pi => dinsert acc pi.2 (SRec.parameter pi.1.tyName pi.1.shape)) LM =
      LM ++ LP := by
    have := foldl_dinsert_eq st.param_to_id (fun pi => pi.2)
      (fun pi => SRec.parameter pi.1.tyName pi.1.shape) LM
      (by
        intro x hx
        rw [hLMkeys]
        exact hpm x (hkeyP ▸ hx)) (hkeyP ▸ hp)
    rw [this]
  have h3 : st.functional_graph.foldl
      (fun acc fe =>
        dinsert acc fe.1 (SRec.function fe.2.ty fe.2.dependencies fe.2.parent_module))
      (LM ++ LP) = LM ++ LP ++ LF := by
    have := foldl_dinsert_eq st.functional_graph (fun fe => fe.1)
      (fun fe => SRec.function fe.2.ty fe.2.dependencies fe.2.parent_module) (LM ++ LP)
      (by
        intro x hx
        rw [List.map_append, List.mem_append, hLMkeys, hLPkeys]
        push_neg
        exact ⟨hfm x (hkeyF ▸ hx), hfp x (hkeyF ▸ hx)⟩) (hkeyF ▸ hf)
    rw [this]
  have hser : serialize st = LM ++ LP ++ LF := by
    show st.functional_graph.foldl
      (fun acc fe =>
        dinsert acc fe.1 (SRec.function fe.2.ty fe.2.dependencies fe.2.parent_module))
      (st.param_to_id.foldl
        (fun acc pi => dinsert acc pi.2 (SRec.parameter pi.1.tyName pi.1.shape))
        (st.module_to_id.foldl
          (fun acc mi =>
            dinsert acc mi.2 (SRec.module mi.1.tyName
              ((alookup st.module_tree mi.2).getD ⟨[], []⟩).params
              ((alookup st.module_tree mi.2).getD ⟨[], []⟩).children)) [])) = LM ++ LP ++ LF
    rw [h1, h2, h3]
  refine ⟨hser, ?_⟩
  intro pr hpr
  rw [hser, List.append_assoc, List.mem_append, List.mem_append] at hpr
  rcases hpr with hpr | hpr | hpr
  · obtain ⟨mi, _, hmi⟩ := List.mem_map.mp hpr
    left
    rw [← hmi]
    rfl
  · obtain ⟨pi, _, hpi⟩ := List.mem_map.mp hpr
    right; left
    rw [← hpi]
    rfl
  · obtain ⟨fe, _, hfe⟩ := List.mem_map.mp hpr
    right; right
    rw [← hfe]
    rfl

/-- Witness for C7 (amended): the serialised graph of the concrete
instrumented forward call consists of the Module record of `"a"` followed by
the three Function records of the snapshot, each tag drawn from Module,
Parameter, Function. -/
theorem serialize_record_forms_witness :
    serialize exCall1.1 =
      [("a", SRec.module "Net" [] []),
       ("b", SRec.function "Input: FloatTensor (2)" [] none),
       ("c", SRec.function "Tanh" [] (some "a")),
       ("d", SRec.function "Output: FloatTensor (2)" ["c"] (some "a"))] := by
  have h := (serialize_record_forms exCall1.1 (by decide) (by decide) (by decide)
    (by decide) (by decide) (by decide)).1
  rw [h]
  rfl
